import Mathlib

/-!
Shallow embedding of the Connect4EngineRust sources (board.rs, moves.rs,
transpositiontable.rs, strategy.rs) and proofs about them.  Bitboards are
`Nat` values with u64 semantics; an explicit `% 2 ^ 64` appears exactly
where the Rust `u64` arithmetic can wrap.  Signed 8-bit evaluation scores
are embedded as `Int` (they stay far inside the i8 range on the inputs the
theorems quantify over).
-/

namespace Connect4

/-- Height of the connect 4 board (board.rs). -/
def HEIGHT : Nat := 6

/-- Width of the connect 4 board (board.rs). -/
def WIDTH : Nat := 7

/-- Total number of elements of the board (board.rs). -/
def SIZE : Nat := WIDTH * HEIGHT

/-- bit representation of the playable board (board.rs). -/
def PLAYABLE_REGION : Nat := 0b0111111011111101111110111111011111101111110111111

/-- mask for bottom row (board.rs). -/
def BOTTOM_ROW_MASK : Nat := 0b0000001000000100000010000001000000100000010000001

/-- mask for top row (board.rs). -/
def TOP_ROW_MASK : Nat := 0b0100000010000001000000100000010000001000000100000

/-- mask for a column, 0b111111 (board.rs). -/
def COLUMN_MASK : Nat := (1 <<< HEIGHT) - 1

/-- number of items in every column, including extra top bit (board.rs). -/
def COUNTS_PER_COL : Nat := 7

/-- down, up-left, left, down-left directions of bitboard (board.rs). -/
def DIRECTION : List Nat := [1, COUNTS_PER_COL - 1, COUNTS_PER_COL, COUNTS_PER_COL + 1]

/-- u64 wrapping left shift. -/
def shl64 (x n : Nat) : Nat := (x <<< n) % 2 ^ 64

/-- Bitwise set difference `x & !y` of the Rust u64 code, written with
kernel-accelerated operations. -/
def setminus (x y : Nat) : Nat := x ^^^ (x &&& y)

/-- Bitboard implementation of the Connect 4 Board (board.rs).
`board` is the bitboard of the opposing player each turn, `total_board`
the OR of the two players' bitboards. -/
structure Board where
  board : Nat
  total_board : Nat
deriving DecidableEq

namespace Board

/-- Board::new (board.rs). -/
def new : Board := ⟨0, 0⟩

/-- Board::col_is_occupied (board.rs). -/
def col_is_occupied (board : Nat) (col : Nat) : Bool :=
  let col_mask := COLUMN_MASK <<< (col * COUNTS_PER_COL)
  let top_bit := TOP_ROW_MASK &&& col_mask
  (board &&& top_bit) != 0

/-- Board::can_add (board.rs). -/
def can_add (b : Board) (col : Nat) : Bool :=
  col < WIDTH && !(col_is_occupied b.total_board col)

/-- Board::possible_moves (board.rs). -/
def possible_moves (b : Board) : Nat :=
  ((b.total_board + BOTTOM_ROW_MASK) % 2 ^ 64) &&& PLAYABLE_REGION

/-- Board::col_to_pos (board.rs). -/
def col_to_pos (possible : Nat) (col : Nat) : Nat :=
  let col_mask := COLUMN_MASK <<< (col * COUNTS_PER_COL)
  possible &&& col_mask

/-- Board::play (board.rs): board ^= total_board; total_board |= pos; board |= pos. -/
def play (b : Board) (pos : Nat) : Board :=
  ⟨(b.board ^^^ b.total_board) ||| pos, b.total_board ||| pos⟩

/-- Board::revert (board.rs): total_board ^= pos; board ^= pos; board ^= total_board. -/
def revert (b : Board) (pos : Nat) : Board :=
  ⟨(b.board ^^^ pos) ^^^ (b.total_board ^^^ pos), b.total_board ^^^ pos⟩

/-- Board::add (board.rs); the `Result` is embedded as `Option`. -/
def add (b : Board) (col : Nat) : Option Board :=
  if b.can_add col then
    let possible := b.possible_moves
    let pos := col_to_pos possible col
    some (b.play pos)
  else
    none

/-- Board::is_win (board.rs): the loop over DIRECTION with early return. -/
def is_win (bitboard : Nat) : Bool :=
  DIRECTION.any fun dir =>
    let bb := bitboard &&& (bitboard >>> dir)
    (bb &&& (bb >>> (2 * dir))) != 0

/-- Board::winning_moves (board.rs): the vertical check followed by the
loop over the three non-vertical directions. -/
def winning_moves (p : Nat) (possible : Nat) : Nat :=
  let start := shl64 p 1 &&& shl64 p 2 &&& shl64 p 3
  let win_moves := (DIRECTION.drop 1).foldl (fun acc dir =>
    let pp := shl64 p dir &&& shl64 p (2 * dir)
    let acc := acc ||| (pp &&& shl64 p (3 * dir))
    let acc := acc ||| (pp &&& (p >>> dir))
    let pp := pp >>> (3 * dir)
    let acc := acc ||| (pp &&& (p >>> (3 * dir)))
    acc ||| (pp &&& shl64 p dir)) start
  win_moves &&& possible

/-- Board::at_most_one_bit_set (board.rs). -/
def at_most_one_bit_set (p : Nat) : Bool :=
  (p &&& (p - 1)) == 0

/-- Board::player_win_moves (board.rs). -/
def player_win_moves (b : Board) (possible : Nat) : Nat :=
  winning_moves (b.board ^^^ b.total_board) possible

/-- Board::opp_win_moves (board.rs). -/
def opp_win_moves (b : Board) (possible : Nat) : Nat :=
  winning_moves b.board possible

/-- Board::is_filled (board.rs). -/
def is_filled (b : Board) : Bool :=
  b.total_board == PLAYABLE_REGION

/-- Board::has_winner (board.rs). -/
def has_winner (b : Board) : Bool :=
  is_win b.board

/-- Board::moves_played (board.rs): popcount of the total board. -/
def moves_played (b : Board) : Nat :=
  (Nat.bits b.total_board).count true

/-- Board::get_unique_position_key (board.rs): total_board + board as u64. -/
def get_unique_position_key (b : Board) : Nat :=
  (b.total_board + b.board) % 2 ^ 64

/-- Modelled from the spec: `Board::non_losing_moves` is called by
`Explorer::search` (strategy.rs line 248) and by database.rs, but its
definition is absent from the provided board.rs (the file is from an
older revision).  Spec section 4.1: opp_wins is the opponent's winning
moves over all empty playable cells; if more than one bit of opp_wins
lies in `playable` return 0; if exactly one, only that bit may be kept;
always remove every bit whose one-up shift lies in opp_wins. -/
def non_losing_moves (b : Board) (playable : Nat) : Nat :=
  let opp_wins := winning_moves b.board (setminus PLAYABLE_REGION b.total_board)
  let forced := opp_wins &&& playable
  let base :=
    if forced = 0 then playable
    else if forced &&& (forced - 1) ≠ 0 then 0
    else forced
  setminus base (opp_wins >>> 1)

end Board

/-! ## Transposition table (transpositiontable.rs) -/

/-- Number of elements in the table (transpositiontable.rs). -/
def MAX_TABLE_SIZE : Nat := 8388593

/-- number of bits used to store the key (transpositiontable.rs). -/
def STORED_KEY_BITS : Nat := 32

/-- 32-bit mask for finding the key bits to store (transpositiontable.rs). -/
def STORED_KEY_BIT_MASK : Nat := (1 <<< STORED_KEY_BITS) - 1

/-- empty key, u32::MAX (transpositiontable.rs). -/
def EMPTY_KEY : Nat := 2 ^ 32 - 1

/-- Modelled from the spec: `EMPTY_MOVE` is exported by moves.rs in the
current revision but absent from the provided (older) moves.rs.  It is the
"no move" sentinel (spec: best_move NONE); as a 3-bit field the only value
outside the column range 0..6 is 7. -/
def EMPTY_MOVE : Nat := 7

/-- FLAG_UPPER (transpositiontable.rs). -/
def FLAG_UPPER : Nat := 0

/-- FLAG_LOWER (transpositiontable.rs). -/
def FLAG_LOWER : Nat := 1

/-- FLAG_EXACT (transpositiontable.rs). -/
def FLAG_EXACT : Nat := 2

/-- an entry of the transposition table (transpositiontable.rs). -/
structure Entry where
  stored_key : Nat
  eval : Int
  flag : Nat
  depth : Nat
  mv : Nat
deriving DecidableEq

namespace Entry

/-- Entry::new (transpositiontable.rs): stores the lower 32 bits of the key. -/
def new (board_key : Nat) (eval : Int) (flag : Nat) (depth : Nat) (mv : Nat) : Entry :=
  ⟨board_key &&& STORED_KEY_BIT_MASK, eval, flag, depth, mv⟩

/-- Entry::clear (transpositiontable.rs). -/
def clear (e : Entry) : Entry :=
  { e with stored_key := EMPTY_KEY }

/-- Entry::default (transpositiontable.rs): i8::MIN eval, u8::MAX depth. -/
def defaultEntry : Entry :=
  Entry.new EMPTY_KEY (-128) FLAG_UPPER 255 EMPTY_MOVE

end Entry

/-- The transposition table (transpositiontable.rs): the Vec of
MAX_TABLE_SIZE buckets is embedded as a function from the index. -/
structure TranspositionTable where
  table : Nat → Entry × Entry

namespace TranspositionTable

/-- TranspositionTable::new (transpositiontable.rs). -/
def new : TranspositionTable :=
  ⟨fun _ => (Entry.defaultEntry, Entry.defaultEntry)⟩

/-- TranspositionTable::location (transpositiontable.rs). -/
def location (key : Nat) : Nat := key % MAX_TABLE_SIZE

/-- TranspositionTable::insert_with_key (transpositiontable.rs): always
replace slot 0; replace slot 1 only if the new depth is lower. -/
def insert_with_key (t : TranspositionTable) (key : Nat) (eval : Int)
    (flag : Nat) (depth : Nat) (mv : Nat) : TranspositionTable :=
  let entry := Entry.new key eval flag depth mv
  let loc := location key
  ⟨fun i =>
    if i = loc then
      (entry, if depth < (t.table loc).2.depth then entry else (t.table loc).2)
    else t.table i⟩

/-- TranspositionTable::get_entry_with_key (transpositiontable.rs). -/
def get_entry_with_key (t : TranspositionTable) (key : Nat) : Option Entry :=
  let loc := location key
  let e := t.table loc
  let new_key := key &&& STORED_KEY_BIT_MASK
  if e.1.stored_key = new_key then some e.1
  else if e.2.stored_key = new_key then some e.2
  else none

/-- TranspositionTable::clear (transpositiontable.rs). -/
def clear (t : TranspositionTable) : TranspositionTable :=
  ⟨fun i => ((t.table i).1.clear, (t.table i).2.clear)⟩

end TranspositionTable

/-! ## Board invariant and reachability -/

/-- The 7-bit field of column `c` of a bitboard (defined before its
lemmas; see the digit toolkit below). -/
def dgt (x c : Nat) : Nat := (x >>> (7 * c)) % 128

/-- The board invariants: the mover's stones are inside the occupied
stones, the occupied board fits in the 49-bit layout, and each column is
a bottom-up prefix of height at most 6. -/
def Inv (b : Board) : Prop :=
  b.board &&& b.total_board = b.board ∧
  b.total_board < 128 ^ 7 ∧
  ∀ c, c < 7 → ∃ h, h ≤ 6 ∧ dgt b.total_board c = 2 ^ h - 1

/-- Positions reachable from the empty board by legal play
(Board::add succeeding). -/
inductive Reachable : Board → Prop
  | base : Reachable Board.new
  | step {b : Board} {c : Nat} {b' : Board} :
      Reachable b → b.add c = some b' → Reachable b'

/-! ## Move iteration (moves.rs of the current revision) -/

/-- Modelled from the spec: the centre-out column order `DEFAULT_ORDER`
of the current moves.rs, which is absent from the provided older
moves.rs (the provided file has a different, list-based `Moves`; the
mask-based iterator is what strategy.rs and the tests use). -/
def DEFAULT_ORDER : List Nat := [3, 2, 4, 1, 5, 0, 6]

/-- Modelled from the spec: the mask-constructed `Moves` iterator of the
current moves.rs, absent from the provided older moves.rs.  It walks the
centre-out column order and yields `(move_bit, column)` for every column
whose bit in the mask is non-zero.  `movesAux` is the walk over a
remaining column order. -/
def movesAux (mask : Nat) : List Nat → List (Nat × Nat)
  | [] => []
  | c :: rest =>
    let mv := mask &&& (COLUMN_MASK <<< (c * COUNTS_PER_COL))
    if mv ≠ 0 then (mv, c) :: movesAux mask rest else movesAux mask rest

/-- Modelled from the spec: the full yield sequence of `Moves::new(mask)`. -/
def movesList (mask : Nat) : List (Nat × Nat) := movesAux mask DEFAULT_ORDER

/-- ScoredMoves::add (scoredmoves.rs): tail insertion that keeps scores
descending; an entry is placed after every stored entry whose score is
greater than or equal to its own. -/
def smAdd (x : Nat × Nat × Int) : List (Nat × Nat × Int) → List (Nat × Nat × Int)
  | [] => [x]
  | y :: ys => if y.2.2 < x.2.2 then x :: y :: ys else y :: smAdd x ys

/-! ## The search (strategy.rs) -/

/-- MAX_SCORE (strategy.rs). -/
def MAX_SCORE : Int := 2 + (SIZE : Int)

/-- TIE_SCORE (strategy.rs). -/
def TIE_SCORE : Int := 0

/-- REFUTATION_SCORE (strategy.rs). -/
def REFUTATION_SCORE : Int := 16

/-- Explorer state (strategy.rs). -/
structure Explorer where
  nodes_explored : Nat
  transpositiontable : TranspositionTable
  fail_low_nodes : Nat
  fail_high_nodes : Nat

/-- Explorer::new (strategy.rs). -/
def Explorer.new : Explorer := ⟨0, TranspositionTable.new, 0, 0⟩

/-- Explorer::win_eval (strategy.rs). -/
def Explorer.win_eval (moves_played : Nat) : Int := MAX_SCORE - (moves_played : Int)

/-- The transposition-table probe of Explorer::search (strategy.rs lines
270-290): returns the updated window, the refutation move, and an early
return value for the EXACT and cut cases. -/
def probeTT (a b : Int) (probe : Option Entry) : Int × Int × Nat × Option Int :=
  match probe with
  | none => (a, b, EMPTY_MOVE, none)
  | some entry =>
    if entry.flag = FLAG_UPPER then
      let b' := min b entry.eval
      if a ≥ b' then (a, b', EMPTY_MOVE, some entry.eval)
      else (a, b', EMPTY_MOVE, none)
    else if entry.flag = FLAG_LOWER then
      let a' := max a entry.eval
      if a' ≥ b then (a', b, entry.mv, some entry.eval)
      else (a', b, entry.mv, none)
    else (a, b, EMPTY_MOVE, some entry.eval)

/-- The move loop of Explorer::search (strategy.rs lines 310-353) plus
the final transposition-table store (lines 345-353).  The recursive call
into Explorer::search for a child position is abstracted as `go`
(instantiated by `search` below), so that both functions are plain
structural recursions. -/
def searchLoop (go : Explorer → Board → Int → Int → Int × Explorer)
    (board_key : Nat) (depth : Nat) (ex : Explorer) (boardcpy : Board)
    (moves : List (Nat × Nat × Int)) (i : Nat) (a b : Int)
    (final_eval : Int) (final_mv : Nat) (a_orig : Int) : Int × Explorer :=
  match moves with
  | [] =>
    let pair :=
      if a_orig < a then (FLAG_EXACT, ex)
      else (FLAG_UPPER, { ex with fail_low_nodes := ex.fail_low_nodes + 1 })
    let ex := { pair.2 with transpositiontable :=
      pair.2.transpositiontable.insert_with_key board_key final_eval pair.1 depth final_mv }
    (final_eval, ex)
  | (m, c, _) :: rest =>
    let bc := boardcpy.play m
    let pair :=
      if i = 0 then
        let pr := go ex bc (-b) (-a)
        (-pr.1, pr.2)
      else
        let pr := go ex bc (-a - 1) (-a)
        let v := -pr.1
        if a < v ∧ v < b then
          let pr2 := go pr.2 bc (-b) (-v)
          (-pr2.1, pr2.2)
        else (v, pr.2)
    let val := pair.1
    let ex := pair.2
    if val ≥ b then
      let ex := { ex with
        transpositiontable :=
          ex.transpositiontable.insert_with_key board_key val FLAG_LOWER depth c,
        fail_high_nodes := ex.fail_high_nodes + 1 }
      (val, ex)
    else
      let adv := if final_eval < val then (max val a, val, c) else (a, final_eval, final_mv)
      let bc := bc.revert m
      searchLoop go board_key depth ex bc rest (i + 1) adv.1 b adv.2.1 adv.2.2 a_orig

/-- Explorer::search (strategy.rs), with the mutable Explorer state
passed explicitly and an explicit recursion-depth fuel (the Rust
recursion always terminates because every recursive call adds a stone;
with fuel at least 43 minus the stones played the fuel clause is never
taken). -/
def search : Nat → Explorer → Board → Int → Int → (Board → Nat → Int) → Int × Explorer
  | 0, ex, _, _, _, _ => (0, ex)
  | fuel + 1, ex, board, a, b, f =>
    let ex := { ex with nodes_explored := ex.nodes_explored + 1 }
    if board.is_filled then (TIE_SCORE, ex)
    else
      let possible := board.possible_moves
      let winning_moves := board.player_win_moves possible
      let mp := board.moves_played
      let board_key := board.get_unique_position_key
      let depth := mp
      if winning_moves ≠ 0 then (Explorer.win_eval (mp + 1), ex)
      else
        let non_losing := board.non_losing_moves possible
        if non_losing = 0 then (-(Explorer.win_eval (mp + 2)), ex)
        else
          let a := max a (-(Explorer.win_eval (mp + 3)))
          let b := min b (Explorer.win_eval (mp + 2))
          if a ≥ b then (a, ex)
          else
            let quad := probeTT a b
              (ex.transpositiontable.get_entry_with_key board_key)
            (quad.2.2.2).elim
              (let a := quad.1
               let b := quad.2.1
               let refutation := quad.2.2.1
               let next_moves := (movesList non_losing).foldl
                 (fun sm mc =>
                   if refutation = mc.2 then smAdd (mc.1, mc.2, REFUTATION_SCORE) sm
                   else smAdd (mc.1, mc.2, f board mc.1) sm) []
               searchLoop (fun ex bc a' b' => search fuel ex bc a' b' f)
                 board_key depth ex board next_moves 0 a b
                 (-MAX_SCORE) EMPTY_MOVE a)
              (fun v => (v, ex))

/-! ## History parsing (board.rs Board::new_position) -/

/-- Rust char::to_digit(10) restricted to the ASCII decimal digits. -/
def to_digit (c : Char) : Option Nat :=
  if 48 ≤ c.toNat ∧ c.toNat ≤ 57 then some (c.toNat - 48) else none

/-- One iteration of the Board::new_position loop (board.rs):
to_digit, checked_sub(1), the u8 conversion (which cannot fail for a
decimal digit), then Board::add. -/
def new_position_step (b : Board) (c : Char) : Option Board :=
  match to_digit c with
  | none => none
  | some d => if d = 0 then none else b.add (d - 1)

/-- The Board::new_position loop (board.rs lines 105-124); the error
value is the zero-based character index that the Rust error message
prints. -/
def new_position_go (b : Board) (i : Nat) : List Char → Except Nat Board
  | [] => Except.ok b
  | c :: rest =>
    match new_position_step b c with
    | some b' => new_position_go b' (i + 1) rest
    | none => Except.error i

/-- Board::new_position (board.rs). -/
def new_position (s : List Char) : Except Nat Board :=
  new_position_go Board.new 0 s

/-- Spec wording for C8: a digit between '1' and '7' designates a
1-based column. -/
def spec_digit_col (c : Char) : Option Nat :=
  if 49 ≤ c.toNat ∧ c.toNat ≤ 55 then some (c.toNat - 49) else none

/-- Spec wording for C8: play one character; fails exactly on a
character that is not a digit '1'-'7' or that designates a full column. -/
def spec_play_char (b : Board) (c : Char) : Option Board :=
  match spec_digit_col c with
  | none => none
  | some col =>
    if Board.col_is_occupied b.total_board col then none
    else some (b.play (Board.col_to_pos b.possible_moves col))

/-- Spec wording for C8: play all characters in order. -/
def spec_play_all (b : Board) : List Char → Option Board
  | [] => some b
  | c :: rest =>
    match spec_play_char b c with
    | some b' => spec_play_all b' rest
    | none => none

/-! ## Per-column digit toolkit

A bitboard splits into seven 7-bit column fields.  `dgt x c` is the field
of column `c`; addition without column carries, bitwise operations and
reconstruction from fields are proved below. -/

theorem dgt_lt (x c : Nat) : dgt x c < 128 :=
  Nat.mod_lt _ (by norm_num)

theorem testBit_dgt (x c r : Nat) :
    (dgt x c).testBit r = (decide (r < 7) && x.testBit (7 * c + r)) := by
  have h128 : (128 : Nat) = 2 ^ 7 := by norm_num
  rw [dgt, h128, Nat.testBit_mod_two_pow, Nat.testBit_shiftRight]

theorem testBit_eq_dgt (x i : Nat) :
    x.testBit i = (dgt x (i / 7)).testBit (i % 7) := by
  rw [testBit_dgt]
  have h1 : i % 7 < 7 := Nat.mod_lt _ (by norm_num)
  have h2 : 7 * (i / 7) + i % 7 = i := Nat.div_add_mod i 7
  simp [h1, h2]

theorem dgt_land (x y c : Nat) : dgt (x &&& y) c = dgt x c &&& dgt y c := by
  apply Nat.eq_of_testBit_eq
  intro r
  simp only [testBit_dgt, Nat.testBit_and]
  cases decide (r < 7) <;> simp

theorem dgt_lor (x y c : Nat) : dgt (x ||| y) c = dgt x c ||| dgt y c := by
  apply Nat.eq_of_testBit_eq
  intro r
  simp only [testBit_dgt, Nat.testBit_or]
  cases decide (r < 7) <;> simp

theorem dgt_xor (x y c : Nat) : dgt (x ^^^ y) c = dgt x c ^^^ dgt y c := by
  apply Nat.eq_of_testBit_eq
  intro r
  simp only [testBit_dgt, Nat.testBit_xor]
  cases decide (r < 7) <;> simp

theorem dgt_shiftRight7 (x c : Nat) : dgt (x >>> 7) c = dgt x (c + 1) := by
  rw [dgt, dgt, ← Nat.shiftRight_add]
  ring_nf

/-- Addition with no column overflow adds fieldwise. -/
theorem dgt_add (x y : Nat) (h : ∀ c, dgt x c + dgt y c < 128) :
    ∀ c, dgt (x + y) c = dgt x c + dgt y c := by
  intro c
  induction c generalizing x y with
  | zero =>
    have h0 := h 0
    simp only [dgt, Nat.mul_zero, Nat.shiftRight_zero] at h0 ⊢
    omega
  | succ c ih =>
    have hdiv : (x + y) / 128 = x / 128 + y / 128 := by
      have h0 := h 0
      simp only [dgt, Nat.mul_zero, Nat.shiftRight_zero] at h0
      omega
    have hx : x >>> 7 = x / 128 := by
      rw [Nat.shiftRight_eq_div_pow]
    have hy : y >>> 7 = y / 128 := by
      rw [Nat.shiftRight_eq_div_pow]
    have hxy : (x + y) >>> 7 = x >>> 7 + y >>> 7 := by
      calc (x + y) >>> 7 = (x + y) / 128 := by rw [Nat.shiftRight_eq_div_pow]
        _ = x / 128 + y / 128 := hdiv
        _ = x >>> 7 + y >>> 7 := by rw [hx, hy]
    have ih' := ih (x >>> 7) (y >>> 7) (fun c' => by
      rw [dgt_shiftRight7, dgt_shiftRight7]; exact h (c' + 1))
    rw [← dgt_shiftRight7, hxy, ih', dgt_shiftRight7, dgt_shiftRight7]

/-- Reconstruction: numbers below `128 ^ n` with equal fields are equal. -/
theorem eq_of_dgt_eq (n : Nat) : ∀ x y : Nat, x < 128 ^ n → y < 128 ^ n →
    (∀ c, c < n → dgt x c = dgt y c) → x = y := by
  induction n with
  | zero => intro x y hx hy _; simp at hx hy; omega
  | succ n ih =>
    intro x y hx hy hd
    have h0 : x % 128 = y % 128 := by
      have := hd 0 (Nat.succ_pos n)
      simpa [dgt] using this
    have hxd : x / 128 < 128 ^ n := by
      rw [Nat.div_lt_iff_lt_mul (by norm_num : (0:Nat) < 128)]
      calc x < 128 ^ (n + 1) := hx
        _ = 128 ^ n * 128 := by ring
    have hyd : y / 128 < 128 ^ n := by
      rw [Nat.div_lt_iff_lt_mul (by norm_num : (0:Nat) < 128)]
      calc y < 128 ^ (n + 1) := hy
        _ = 128 ^ n * 128 := by ring
    have hsh : ∀ z : Nat, z >>> 7 = z / 128 := fun z => by
      rw [Nat.shiftRight_eq_div_pow]
    have hdd : x / 128 = y / 128 := by
      apply ih _ _ hxd hyd
      intro c hc
      rw [← hsh x, ← hsh y, dgt_shiftRight7, dgt_shiftRight7]
      exact hd (c + 1) (by omega)
    omega

theorem dgt_eq_zero_of_ge {x n c : Nat} (hx : x < 128 ^ n) (hc : n ≤ c) :
    dgt x c = 0 := by
  have : x >>> (7 * c) = 0 := by
    rw [Nat.shiftRight_eq_div_pow]
    apply Nat.div_eq_of_lt
    calc x < 128 ^ n := hx
      _ = 2 ^ (7 * n) := by rw [Nat.pow_mul]
      _ ≤ 2 ^ (7 * c) := Nat.pow_le_pow_right (by norm_num) (by omega)
  simp [dgt, this]

theorem dgt_two_pow (k c : Nat) :
    dgt (2 ^ k) c = if c = k / 7 then 2 ^ (k % 7) else 0 := by
  apply Nat.eq_of_testBit_eq
  intro r
  rw [testBit_dgt]
  by_cases hc : c = k / 7
  · subst hc
    rw [if_pos rfl]
    simp only [Nat.testBit_two_pow, ← Bool.decide_and]
    apply decide_eq_decide.mpr
    omega
  · rw [if_neg hc]
    simp only [Nat.testBit_two_pow, Nat.zero_testBit, ← Bool.decide_and,
      decide_eq_false_iff_not]
    intro hcon
    apply hc
    omega

theorem dgt_PLAYABLE : ∀ c, c < 7 → dgt PLAYABLE_REGION c = 63 := by decide

theorem dgt_BOTTOM : ∀ c, c < 7 → dgt BOTTOM_ROW_MASK c = 1 := by decide

theorem PLAYABLE_lt : PLAYABLE_REGION < 128 ^ 7 := by decide

theorem BOTTOM_lt : BOTTOM_ROW_MASK < 128 ^ 7 := by decide

/-! ## Invariant lemmas -/

theorem pow128_eq : (128 : Nat) ^ 7 = 2 ^ 49 := by norm_num

theorem inv_new : Inv Board.new := by
  refine ⟨rfl, by decide, fun c hc => ⟨0, by norm_num, ?_⟩⟩
  simp [dgt, Board.new]

theorem and_two_pow_eq_zero_iff (x k : Nat) :
    x &&& 2 ^ k = 0 ↔ x.testBit k = false := by
  constructor
  · intro h
    have := congrArg (fun y => y.testBit k) h
    simpa [Nat.testBit_two_pow] using this
  · intro h
    apply Nat.eq_of_testBit_eq
    intro j
    simp only [Nat.testBit_and, Nat.testBit_two_pow, Nat.zero_testBit]
    by_cases hk : k = j
    · subst hk; simp [h]
    · simp [hk]

theorem top_colmask : ∀ c, c < 7 →
    TOP_ROW_MASK &&& (COLUMN_MASK <<< (c * COUNTS_PER_COL)) = 2 ^ (7 * c + 5) := by
  decide

theorem colmask_lt : ∀ c, c < 7 →
    (COLUMN_MASK <<< (c * COUNTS_PER_COL)) < 128 ^ 7 := by
  decide

theorem dgt_colmask_small : ∀ c, c < 7 → ∀ e, e < 7 →
    dgt (COLUMN_MASK <<< (c * COUNTS_PER_COL)) e = if e = c then 63 else 0 := by
  decide

theorem dgt_colmask (c : Nat) (hc : c < 7) (e : Nat) :
    dgt (COLUMN_MASK <<< (c * COUNTS_PER_COL)) e = if e = c then 63 else 0 := by
  by_cases he : e < 7
  · exact dgt_colmask_small c hc e he
  · rw [dgt_eq_zero_of_ge (colmask_lt c hc) (by omega)]
    have : e ≠ c := by omega
    simp [this]

theorem or_pow_sub_one : ∀ h, h < 7 → ((2 ^ h - 1) ||| 2 ^ h) = 2 ^ (h + 1) - 1 := by
  decide

theorem and63_pow : ∀ h, h ≤ 6 → (2 ^ h &&& 63) &&& 63 = 2 ^ h &&& 63 := by
  decide

theorem pow_and63 : ∀ h, h ≤ 5 → 2 ^ h &&& 63 = 2 ^ h := by
  decide

theorem dgt_total_add_bottom (b : Board) (hInv : Inv b) :
    ∀ e, dgt (b.total_board + BOTTOM_ROW_MASK) e = dgt b.total_board e + dgt BOTTOM_ROW_MASK e := by
  apply dgt_add
  intro e
  by_cases he : e < 7
  · obtain ⟨h, hh, hd⟩ := hInv.2.2 e he
    rw [hd, dgt_BOTTOM e he]
    have : (2 : Nat) ^ h ≤ 2 ^ 6 := Nat.pow_le_pow_right (by norm_num) hh
    omega
  · rw [dgt_eq_zero_of_ge hInv.2.1 (by omega), dgt_eq_zero_of_ge BOTTOM_lt (by omega)]
    norm_num

theorem possible_moves_no_wrap (b : Board) (hInv : Inv b) :
    b.possible_moves = (b.total_board + BOTTOM_ROW_MASK) &&& PLAYABLE_REGION := by
  have hlt : b.total_board + BOTTOM_ROW_MASK < 2 ^ 64 := by
    have h1 : b.total_board < 2 ^ 49 := pow128_eq ▸ hInv.2.1
    have h2 : BOTTOM_ROW_MASK < 2 ^ 49 := pow128_eq ▸ BOTTOM_lt
    have : (2 : Nat) ^ 49 + 2 ^ 49 ≤ 2 ^ 64 := by norm_num
    omega
  rw [Board.possible_moves, Nat.mod_eq_of_lt hlt]

theorem dgt_possible (b : Board) (hInv : Inv b) (c : Nat) (hc : c < 7)
    (h : Nat) (hd : dgt b.total_board c = 2 ^ h - 1) :
    dgt b.possible_moves c = 2 ^ h &&& 63 := by
  rw [possible_moves_no_wrap b hInv, dgt_land, dgt_total_add_bottom b hInv,
    dgt_PLAYABLE c hc, hd, dgt_BOTTOM c hc]
  have : (2 : Nat) ^ h - 1 + 1 = 2 ^ h := by
    have : (0 : Nat) < 2 ^ h := Nat.pos_pow_of_pos h (by norm_num)
    omega
  rw [this]

theorem possible_lt (b : Board) : b.possible_moves < 128 ^ 7 :=
  lt_of_le_of_lt Nat.and_le_right PLAYABLE_lt

/-- Every set bit of the playable-move mask sits at the top of a column:
its column height is at most 5 and the occupied board is clear there. -/
theorem possible_bit_structure (b : Board) (hInv : Inv b) (i : Nat)
    (hbit : (b.possible_moves).testBit i = true) :
    ∃ c h, c < 7 ∧ h ≤ 5 ∧ i = 7 * c + h ∧
      dgt b.total_board c = 2 ^ h - 1 ∧ b.total_board.testBit i = false := by
  have hplay : PLAYABLE_REGION.testBit i = true := by
    have : (b.possible_moves).testBit i =
        (((b.total_board + BOTTOM_ROW_MASK) % 2 ^ 64).testBit i && PLAYABLE_REGION.testBit i) := by
      unfold Board.possible_moves
      rw [Nat.testBit_and]
    rw [this] at hbit
    exact (Bool.and_eq_true _ _ |>.mp hbit).2
  have hi48 : i < 48 := by
    by_contra hge
    have : PLAYABLE_REGION.testBit i = false := by
      apply Nat.testBit_lt_two_pow
      calc PLAYABLE_REGION < 2 ^ 48 := by decide
        _ ≤ 2 ^ i := Nat.pow_le_pow_right (by norm_num) (by omega)
    rw [this] at hplay
    exact Bool.false_ne_true hplay
  set c := i / 7 with hcdef
  set r := i % 7 with hrdef
  have hc : c < 7 := by omega
  have hr : r < 7 := by omega
  obtain ⟨h, hh, hd⟩ := hInv.2.2 c hc
  have hdp := dgt_possible b hInv c hc h hd
  have hbit' : (dgt b.possible_moves c).testBit r = true := by
    rw [← testBit_eq_dgt]
    exact hbit
  rw [hdp] at hbit'
  have hbit'' : ((2 : Nat) ^ h).testBit r = true ∧ (63 : Nat).testBit r = true := by
    constructor
    · have := Nat.testBit_and (2 ^ h) 63 r
      rw [this] at hbit'
      exact (Bool.and_eq_true _ _ |>.mp hbit').1
    · have := Nat.testBit_and (2 ^ h) 63 r
      rw [this] at hbit'
      exact (Bool.and_eq_true _ _ |>.mp hbit').2
  have hhr : h = r := by
    have := hbit''.1
    rw [Nat.testBit_two_pow] at this
    exact of_decide_eq_true this
  have hr6 : r < 6 := by
    have := hbit''.2
    have h63 : (63 : Nat).testBit r = decide (r < 6) := by
      have : (63 : Nat) = 2 ^ 6 - 1 := by norm_num
      rw [this, Nat.testBit_two_pow_sub_one]
    rw [h63] at this
    exact of_decide_eq_true this
  refine ⟨c, h, hc, by omega, by omega, hd, ?_⟩
  rw [testBit_eq_dgt, ← hcdef, ← hrdef, hd, ← hhr]
  have : (0 : Nat) < 2 ^ h := Nat.pos_pow_of_pos h (by norm_num)
  rw [Nat.testBit_two_pow_sub_one]
  simp

/-- play then revert is the identity for a move disjoint from the
occupied stones. -/
theorem play_revert_of (b : Board) (m : Nat)
    (hsub : b.board &&& b.total_board = b.board)
    (hm : m &&& b.total_board = 0) : (b.play m).revert m = b := by
  have hbits : ∀ i, (m.testBit i && b.total_board.testBit i) = false := by
    intro i
    have := congrArg (fun x => x.testBit i) hm
    simpa using this
  have hsubbits : ∀ i, (b.board.testBit i && b.total_board.testBit i) = b.board.testBit i := by
    intro i
    have := congrArg (fun x => x.testBit i) hsub
    simpa using this
  cases b with
  | mk B T =>
    simp only [Board.play, Board.revert, Board.mk.injEq]
    simp only at hbits hsubbits
    constructor
    · apply Nat.eq_of_testBit_eq
      intro i
      have h1 := hbits i
      have h2 := hsubbits i
      simp only [Nat.testBit_xor, Nat.testBit_or]
      cases hmi : m.testBit i <;> cases hti : T.testBit i <;>
        cases hbi : B.testBit i <;> simp_all
    · apply Nat.eq_of_testBit_eq
      intro i
      have h1 := hbits i
      simp only [Nat.testBit_xor, Nat.testBit_or]
      cases hmi : m.testBit i <;> cases hti : T.testBit i <;> simp_all

/-- C5: on a board satisfying the invariants, playing a single-bit move
drawn from the possible-moves mask and then reverting it restores the
board bit-identically. -/
theorem play_then_revert (b : Board) (hInv : Inv b) (i : Nat)
    (hbit : (b.possible_moves).testBit i = true) :
    (b.play (2 ^ i)).revert (2 ^ i) = b := by
  obtain ⟨c, h, hc, hh, hieq, hd, htb⟩ := possible_bit_structure b hInv i hbit
  apply play_revert_of _ _ hInv.1
  apply Nat.eq_of_testBit_eq
  intro j
  simp only [Nat.testBit_and, Nat.testBit_two_pow, Nat.zero_testBit]
  by_cases hij : i = j
  · subst hij
    simp [htb]
  · simp [hij]

/-- Witness for C5 on the empty board with the column-0 move. -/
theorem play_then_revert_witness :
    (Board.new.play (2 ^ 0)).revert (2 ^ 0) = Board.new :=
  play_then_revert Board.new inv_new 0 (by decide)

/-! ## Invariant preservation and key injectivity (C4, C10) -/

theorem can_add_facts (b : Board) (hInv : Inv b) (c : Nat) (hca : b.can_add c = true) :
    c < 7 ∧ ∃ h, h ≤ 5 ∧ dgt b.total_board c = 2 ^ h - 1 := by
  unfold Board.can_add at hca
  rw [Bool.and_eq_true] at hca
  obtain ⟨hc7, hocc⟩ := hca
  have hc : c < 7 := by
    have := of_decide_eq_true hc7
    simpa [WIDTH] using this
  have hocc' : Board.col_is_occupied b.total_board c = false := by
    simpa using hocc
  obtain ⟨h, hh, hd⟩ := hInv.2.2 c hc
  refine ⟨hc, h, ?_, hd⟩
  by_contra hgt
  have h6 : h = 6 := by omega
  subst h6
  have hcontra : Board.col_is_occupied b.total_board c = true := by
    unfold Board.col_is_occupied
    simp only [bne_iff_ne, ne_eq]
    rw [top_colmask c hc]
    intro h0
    rw [and_two_pow_eq_zero_iff] at h0
    rw [testBit_eq_dgt] at h0
    have hdiv : (7 * c + 5) / 7 = c := by omega
    have hmod : (7 * c + 5) % 7 = 5 := by omega
    rw [hdiv, hmod, hd] at h0
    exact absurd h0 (by decide)
  rw [hcontra] at hocc'
  exact absurd hocc' (by decide)

theorem pos_dgt (b : Board) (hInv : Inv b) (c : Nat) (hc : c < 7) (h : Nat) (hh : h ≤ 5)
    (hd : dgt b.total_board c = 2 ^ h - 1) :
    ∀ e, dgt (Board.col_to_pos b.possible_moves c) e = if e = c then 2 ^ h else 0 := by
  intro e
  unfold Board.col_to_pos
  rw [dgt_land, dgt_colmask c hc e]
  by_cases he : e = c
  · subst he
    rw [dgt_possible b hInv e hc h hd, pow_and63 h hh]
    simp only [if_pos rfl]
    exact pow_and63 h hh
  · rw [if_neg he, if_neg he, Nat.and_zero]

theorem inv_add (b b' : Board) (c : Nat) (hInv : Inv b) (hadd : b.add c = some b') :
    Inv b' := by
  unfold Board.add at hadd
  by_cases hca : b.can_add c = true
  · rw [if_pos hca] at hadd
    obtain ⟨hc, h, hh, hd⟩ := can_add_facts b hInv c hca
    have hb' : b' = b.play (Board.col_to_pos b.possible_moves c) := by
      simpa using hadd.symm
    subst hb'
    have hposd := pos_dgt b hInv c hc h hh hd
    set pos := Board.col_to_pos b.possible_moves c with hposdef
    refine ⟨?_, ?_, ?_⟩
    · apply Nat.eq_of_testBit_eq
      intro i
      have h2 := congrArg (fun x => x.testBit i) hInv.1
      simp only [Nat.testBit_and] at h2
      simp only [Board.play, Nat.testBit_and, Nat.testBit_or, Nat.testBit_xor]
      cases hbi : b.board.testBit i <;> cases hti : b.total_board.testBit i <;>
        cases hpi : pos.testBit i <;> simp_all
    · have h1 : b.total_board < 2 ^ 49 := pow128_eq ▸ hInv.2.1
      have h2 : pos < 2 ^ 49 := by
        have hle : pos ≤ b.possible_moves := Nat.and_le_left
        have h3 := possible_lt b
        rw [pow128_eq] at h3
        omega
      show b.total_board ||| pos < 128 ^ 7
      rw [pow128_eq]
      exact Nat.or_lt_two_pow h1 h2
    · intro e he
      obtain ⟨h2, hh2, hd2⟩ := hInv.2.2 e he
      show ∃ hgt, hgt ≤ 6 ∧ dgt (b.total_board ||| pos) e = 2 ^ hgt - 1
      rw [dgt_lor, hposd e]
      by_cases hec : e = c
      · subst hec
        rw [if_pos rfl, hd, or_pow_sub_one h (by omega)]
        exact ⟨h + 1, by omega, rfl⟩
      · rw [if_neg hec, Nat.or_zero]
        exact ⟨h2, hh2, hd2⟩
  · simp only [Bool.not_eq_true] at hca
    rw [hca] at hadd
    simp at hadd

theorem reachable_inv {b : Board} (hr : Reachable b) : Inv b := by
  induction hr with
  | base => exact inv_new
  | step hprev hadd ih => exact inv_add _ _ _ ih hadd

theorem inv_board_lt (b : Board) (hInv : Inv b) : b.board < 128 ^ 7 := by
  calc b.board = b.board &&& b.total_board := hInv.1.symm
    _ ≤ b.total_board := Nat.and_le_right
    _ < 128 ^ 7 := hInv.2.1

theorem key_no_wrap (b : Board) (hInv : Inv b) :
    b.get_unique_position_key = b.total_board + b.board := by
  unfold Board.get_unique_position_key
  apply Nat.mod_eq_of_lt
  have h1 : b.total_board < 2 ^ 49 := pow128_eq ▸ hInv.2.1
  have h2 : b.board < 2 ^ 49 := pow128_eq ▸ inv_board_lt b hInv
  have : (2 : Nat) ^ 49 + 2 ^ 49 ≤ 2 ^ 64 := by norm_num
  omega

theorem dgt_board_lt (b : Board) (hInv : Inv b) (c : Nat) (hc : c < 7)
    (h : Nat) (hd : dgt b.total_board c = 2 ^ h - 1) :
    dgt b.board c < 2 ^ h := by
  have h1 : dgt b.board c = dgt b.board c &&& dgt b.total_board c := by
    conv_lhs => rw [← hInv.1]
    rw [dgt_land]
  have h2 : dgt b.board c ≤ 2 ^ h - 1 := by
    rw [h1, hd]
    exact Nat.and_le_right
  have : (0 : Nat) < 2 ^ h := Nat.pos_pow_of_pos h (by norm_num)
  omega

theorem dgt_key_split (b : Board) (hInv : Inv b) (c : Nat) :
    dgt (b.total_board + b.board) c = dgt b.total_board c + dgt b.board c := by
  apply dgt_add
  intro e
  by_cases he : e < 7
  · obtain ⟨h, hh, hd⟩ := hInv.2.2 e he
    have h1 : dgt b.total_board e ≤ 63 := by
      rw [hd]
      have : (2 : Nat) ^ h ≤ 2 ^ 6 := Nat.pow_le_pow_right (by norm_num) hh
      omega
    have h2 : dgt b.board e < 2 ^ h := dgt_board_lt b hInv e he h hd
    have h3 : (2 : Nat) ^ h ≤ 64 :=
      le_trans (Nat.pow_le_pow_right (by norm_num) hh) (by norm_num)
    omega
  · rw [dgt_eq_zero_of_ge hInv.2.1 (by omega),
      dgt_eq_zero_of_ge (inv_board_lt b hInv) (by omega)]
    norm_num

theorem two_pow_add_inj {h1 h2 b1 b2 : Nat} (hb1 : b1 < 2 ^ h1) (hb2 : b2 < 2 ^ h2)
    (he : 2 ^ h1 + b1 = 2 ^ h2 + b2) : h1 = h2 ∧ b1 = b2 := by
  rcases Nat.lt_trichotomy h1 h2 with h | h | h
  · exfalso
    have e1 : (2 : Nat) ^ (h1 + 1) ≤ 2 ^ h2 := Nat.pow_le_pow_right (by norm_num) (by omega)
    have e2 : (2 : Nat) ^ (h1 + 1) = 2 ^ h1 + 2 ^ h1 := by rw [pow_succ]; ring
    omega
  · subst h; omega
  · exfalso
    have e1 : (2 : Nat) ^ (h2 + 1) ≤ 2 ^ h1 := Nat.pow_le_pow_right (by norm_num) (by omega)
    have e2 : (2 : Nat) ^ (h2 + 1) = 2 ^ h2 + 2 ^ h2 := by rw [pow_succ]; ring
    omega

/-- Key injectivity over invariant boards (shared by C4 and C6). -/
theorem key_inj_of_inv (P Q : Board) (hIP : Inv P) (hIQ : Inv Q)
    (hkey : P.get_unique_position_key = Q.get_unique_position_key) : P = Q := by
  rw [key_no_wrap P hIP, key_no_wrap Q hIQ] at hkey
  have hcols : ∀ c, c < 7 →
      dgt P.total_board c = dgt Q.total_board c ∧ dgt P.board c = dgt Q.board c := by
    intro c hc
    obtain ⟨h1, hh1, hd1⟩ := hIP.2.2 c hc
    obtain ⟨h2, hh2, hd2⟩ := hIQ.2.2 c hc
    have e1 := dgt_key_split P hIP c
    have e2 := dgt_key_split Q hIQ c
    have heq : dgt P.total_board c + dgt P.board c
        = dgt Q.total_board c + dgt Q.board c := by
      rw [← e1, ← e2, hkey]
    have hb1 := dgt_board_lt P hIP c hc h1 hd1
    have hb2 := dgt_board_lt Q hIQ c hc h2 hd2
    have hpow : 2 ^ h1 + dgt P.board c = 2 ^ h2 + dgt Q.board c := by
      rw [hd1, hd2] at heq
      have p1 : (0 : Nat) < 2 ^ h1 := Nat.pos_pow_of_pos _ (by norm_num)
      have p2 : (0 : Nat) < 2 ^ h2 := Nat.pos_pow_of_pos _ (by norm_num)
      omega
    obtain ⟨hh, hb⟩ := two_pow_add_inj hb1 hb2 hpow
    subst hh
    exact ⟨by rw [hd1, hd2], hb⟩
  have ht : P.total_board = Q.total_board :=
    eq_of_dgt_eq 7 _ _ hIP.2.1 hIQ.2.1 (fun c hc => (hcols c hc).1)
  have hb : P.board = Q.board :=
    eq_of_dgt_eq 7 _ _ (inv_board_lt P hIP) (inv_board_lt Q hIQ) (fun c hc => (hcols c hc).2)
  cases P; cases Q
  simp_all

/-- C4: get_unique_position_key (total_board + board) is injective over
the positions reachable from the empty board by legal play: equal keys
force bit-identical boards. -/
theorem get_unique_position_key_injective (P Q : Board)
    (hP : Reachable P) (hQ : Reachable Q)
    (hkey : P.get_unique_position_key = Q.get_unique_position_key) : P = Q :=
  key_inj_of_inv P Q (reachable_inv hP) (reachable_inv hQ) hkey

/-- Witness for C4 with the empty board on both sides. -/
theorem get_unique_position_key_injective_witness : Board.new = Board.new :=
  get_unique_position_key_injective Board.new Board.new
    Reachable.base Reachable.base rfl

theorem dgt_key_zero_le (b : Board) (hInv : Inv b) :
    b.get_unique_position_key % 128 ≤ 126 := by
  have h0 : b.get_unique_position_key % 128 = dgt b.get_unique_position_key 0 := by
    simp [dgt]
  rw [h0, key_no_wrap b hInv, dgt_key_split b hInv 0]
  obtain ⟨h, hh, hd⟩ := hInv.2.2 0 (by norm_num)
  have h1 : dgt b.total_board 0 ≤ 63 := by
    rw [hd]
    have : (2 : Nat) ^ h ≤ 2 ^ 6 := Nat.pow_le_pow_right (by norm_num) hh
    omega
  have h2 : dgt b.board 0 < 2 ^ h := dgt_board_lt b hInv 0 (by norm_num) h hd
  have h3 : (2 : Nat) ^ h ≤ 64 :=
    le_trans (Nat.pow_le_pow_right (by norm_num) hh) (by norm_num)
  omega

/-- The low 32 bits of a reachable key never equal the sentinel
(shared by C10 and C6). -/
theorem key_low32_ne_empty (b : Board) (hInv : Inv b) :
    b.get_unique_position_key &&& STORED_KEY_BIT_MASK ≠ EMPTY_KEY := by
  have hmask : STORED_KEY_BIT_MASK = 2 ^ 32 - 1 := by decide
  rw [hmask, Nat.and_pow_two_sub_one_eq_mod]
  intro hcon
  have h1 : b.get_unique_position_key % 2 ^ 32 % 128 = b.get_unique_position_key % 128 :=
    Nat.mod_mod_of_dvd _ (by norm_num)
  rw [hcon] at h1
  have h2 := dgt_key_zero_le b hInv
  rw [← h1] at h2
  norm_num [EMPTY_KEY] at h2

/-- C10: for every reachable board the lower 32 bits of the unique key
differ from the EMPTY_KEY sentinel, so a lookup can never return a
cleared or never-written slot as a match. -/
theorem unique_key_never_matches_empty (b : Board) (hb : Reachable b) :
    b.get_unique_position_key &&& STORED_KEY_BIT_MASK ≠ EMPTY_KEY ∧
    ∀ t : TranspositionTable,
      (t.table (TranspositionTable.location b.get_unique_position_key)).1.stored_key
        = EMPTY_KEY →
      (t.table (TranspositionTable.location b.get_unique_position_key)).2.stored_key
        = EMPTY_KEY →
      t.get_entry_with_key b.get_unique_position_key = none := by
  have hInv := reachable_inv hb
  have hne := key_low32_ne_empty b hInv
  refine ⟨hne, ?_⟩
  intro t h1 h2
  unfold TranspositionTable.get_entry_with_key
  simp only
  rw [h1, h2, if_neg, if_neg]
  · intro hcon
    exact hne hcon.symm
  · intro hcon
    exact hne hcon.symm

/-- Witness for C10 on the empty board and a freshly cleared table. -/
theorem unique_key_never_matches_empty_witness :
    Board.new.get_unique_position_key &&& STORED_KEY_BIT_MASK ≠ EMPTY_KEY ∧
    (TranspositionTable.new.clear).get_entry_with_key
      Board.new.get_unique_position_key = none := by
  refine ⟨(unique_key_never_matches_empty Board.new Reachable.base).1, ?_⟩
  exact (unique_key_never_matches_empty Board.new Reachable.base).2
    TranspositionTable.new.clear rfl rfl

/-! ## C7: frame effect of insert_with_key -/

/-- C7: for every key and entry data, insert_with_key unconditionally
overwrites slot 0 of the bucket at index `key mod 8388593`, overwrites
slot 1 of that bucket exactly when the new depth is strictly smaller than
the stored one, and leaves every other bucket unchanged. -/
theorem insert_with_key_frame (t : TranspositionTable) (key : Nat) (eval : Int)
    (flag : Nat) (depth : Nat) (mv : Nat) :
    ((t.insert_with_key key eval flag depth mv).table (key % 8388593)).1
        = Entry.new key eval flag depth mv ∧
    ((t.insert_with_key key eval flag depth mv).table (key % 8388593)).2
        = (if depth < (t.table (key % 8388593)).2.depth
           then Entry.new key eval flag depth mv
           else (t.table (key % 8388593)).2) ∧
    (∀ i, i ≠ key % 8388593 →
      (t.insert_with_key key eval flag depth mv).table i = t.table i) := by
  refine ⟨?_, ?_, ?_⟩
  · simp [TranspositionTable.insert_with_key, TranspositionTable.location, MAX_TABLE_SIZE]
  · simp [TranspositionTable.insert_with_key, TranspositionTable.location, MAX_TABLE_SIZE]
  · intro i hi
    simp only [TranspositionTable.insert_with_key, TranspositionTable.location]
    have : i ≠ key % MAX_TABLE_SIZE := by
      simpa [MAX_TABLE_SIZE] using hi
    simp [this]

/-- Witness for C7 at concrete inputs. -/
theorem insert_with_key_frame_witness :
    ((TranspositionTable.new.insert_with_key 5 3 2 4 1).table (5 % 8388593)).1
        = Entry.new 5 3 2 4 1 ∧
    (TranspositionTable.new.insert_with_key 5 3 2 4 1).table 7 = TranspositionTable.new.table 7 := by
  refine ⟨(insert_with_key_frame TranspositionTable.new 5 3 2 4 1).1, ?_⟩
  exact (insert_with_key_frame TranspositionTable.new 5 3 2 4 1).2.2 7 (by decide)

/-! ## C8: history parsing -/

/-- The loop body of Board::new_position agrees with the spec wording:
it fails exactly on a character that is not a digit 1-7 or whose column
is full. -/
theorem step_eq_spec (b : Board) (c : Char) :
    new_position_step b c = spec_play_char b c := by
  unfold new_position_step spec_play_char to_digit spec_digit_col
  by_cases h1 : 48 ≤ c.toNat ∧ c.toNat ≤ 57
  · rw [if_pos h1]
    by_cases h2 : 49 ≤ c.toNat ∧ c.toNat ≤ 55
    · rw [if_pos h2]
      have hd0 : ¬(c.toNat - 48 = 0) := by omega
      simp only [if_neg hd0]
      unfold Board.add Board.can_add
      have hcol : c.toNat - 48 - 1 = c.toNat - 49 := by omega
      rw [hcol]
      have hlt : c.toNat - 49 < WIDTH := by
        unfold WIDTH
        omega
      by_cases hocc : Board.col_is_occupied b.total_board (c.toNat - 49) = true
      · simp [hocc, hlt]
      · simp only [Bool.not_eq_true] at hocc
        simp [hocc, hlt]
    · rw [if_neg h2]
      by_cases hd0 : c.toNat - 48 = 0
      · simp [hd0]
      · simp only [if_neg hd0]
        unfold Board.add Board.can_add
        have hge : ¬(c.toNat - 48 - 1 < WIDTH) := by
          unfold WIDTH
          omega
        simp [hge]
  · rw [if_neg h1]
    have h2 : ¬(49 ≤ c.toNat ∧ c.toNat ≤ 55) := by omega
    rw [if_neg h2]

theorem new_position_go_spec (s : List Char) : ∀ b i,
    (∀ b', new_position_go b i s = Except.ok b' ↔ spec_play_all b s = some b') ∧
    (∀ e, new_position_go b i s = Except.error e ↔
      ∃ j bj c, e = i + j ∧ spec_play_all b (s.take j) = some bj ∧
        s[j]? = some c ∧ spec_play_char bj c = none) := by
  induction s with
  | nil =>
    intro b i
    constructor
    · intro b'
      simp [new_position_go, spec_play_all]
    · intro e
      simp [new_position_go]
  | cons c rest ih =>
    intro b i
    constructor
    · intro b'
      simp only [new_position_go, step_eq_spec]
      cases h : spec_play_char b c with
      | some b2 =>
        simp only [spec_play_all, h]
        exact (ih b2 (i + 1)).1 b'
      | none =>
        simp [spec_play_all, h]
    · intro e
      simp only [new_position_go, step_eq_spec]
      cases h : spec_play_char b c with
      | some b2 =>
        simp only []
        rw [(ih b2 (i + 1)).2 e]
        constructor
        · rintro ⟨j, bj, cc, he, hplay, hget, hbad⟩
          refine ⟨j + 1, bj, cc, by omega, ?_, ?_, hbad⟩
          · simp [List.take_succ_cons, spec_play_all, h, hplay]
          · simpa using hget
        · rintro ⟨j, bj, cc, he, hplay, hget, hbad⟩
          cases j with
          | zero =>
            simp only [List.take_zero, spec_play_all] at hplay
            simp only [List.getElem?_cons_zero] at hget
            rw [Option.some.injEq] at hplay hget
            rw [← hplay, ← hget] at hbad
            rw [h] at hbad
            exact absurd hbad (by simp)
          | succ j' =>
            refine ⟨j', bj, cc, by omega, ?_, ?_, hbad⟩
            · simp only [List.take_succ_cons, spec_play_all, h] at hplay
              exact hplay
            · simpa using hget
      | none =>
        simp only []
        constructor
        · intro he
          rw [Except.error.injEq] at he
          refine ⟨0, b, c, by omega, by simp [spec_play_all], by simp, h⟩
        · rintro ⟨j, bj, cc, he, hplay, hget, hbad⟩
          cases j with
          | zero =>
            rw [Except.error.injEq]
            omega
          | succ j' =>
            simp only [List.take_succ_cons, spec_play_all, h] at hplay
            exact absurd hplay (by simp)

/-- C8: Board::new_position returns ok of the board obtained by playing
the characters of the input as 1-based column digits in order from the
empty board, and returns an error carrying the zero-based index i
exactly when the character at index i is the first one that is not a
digit 1-7 or that designates a full column. -/
theorem new_position_spec (s : List Char) :
    (∀ b, new_position s = Except.ok b ↔ spec_play_all Board.new s = some b) ∧
    (∀ i, new_position s = Except.error i ↔
      ∃ b c, spec_play_all Board.new (s.take i) = some b ∧
        s[i]? = some c ∧ spec_play_char b c = none) := by
  constructor
  · intro b
    exact (new_position_go_spec s Board.new 0).1 b
  · intro i
    rw [new_position, (new_position_go_spec s Board.new 0).2 i]
    constructor
    · rintro ⟨j, bj, c, he, hplay, hget, hbad⟩
      have : j = i := by omega
      subst this
      exact ⟨bj, c, hplay, hget, hbad⟩
    · rintro ⟨b, c, hplay, hget, hbad⟩
      exact ⟨i, b, c, by omega, hplay, hget, hbad⟩

/-! ## C2: non-losing moves -/

theorem pow_and_pred (i : Nat) : 2 ^ i &&& (2 ^ i - 1) = 0 := by
  apply Nat.eq_of_testBit_eq
  intro j
  rw [Nat.testBit_and, Nat.testBit_two_pow, Nat.testBit_two_pow_sub_one, Nat.zero_testBit]
  by_cases h : i = j
  · subst h
    simp
  · simp [h]

theorem and_pred_pow (x : Nat) : x ≠ 0 → x &&& (x - 1) = 0 → ∃ i, x = 2 ^ i := by
  induction x using Nat.strong_induction_on with
  | _ x ih =>
    intro hx h
    rcases Nat.even_or_odd x with he | ho
    · obtain ⟨y, hy⟩ := he
      have hx2 : x = 2 * y := by omega
      have hyne : y ≠ 0 := by omega
      have hbits : ∀ j, (y &&& (y - 1)).testBit j = false := by
        intro j
        have hj := congrArg (fun z => z.testBit (j + 1)) h
        simp only [Nat.zero_testBit] at hj
        rw [Nat.testBit_and, Nat.testBit_add_one, Nat.testBit_add_one] at hj
        have e1 : x / 2 = y := by omega
        have e2 : (x - 1) / 2 = y - 1 := by omega
        rw [e1, e2] at hj
        rw [Nat.testBit_and]
        exact hj
      have hzero : y &&& (y - 1) = 0 := by
        apply Nat.eq_of_testBit_eq
        intro k
        rw [hbits k, Nat.zero_testBit]
      obtain ⟨i, hi⟩ := ih y (by omega) hyne hzero
      refine ⟨i + 1, ?_⟩
      rw [hx2, hi, pow_succ]
      ring
    · obtain ⟨y, hy⟩ := ho
      have hyzero : y = 0 := by
        by_contra hyne
        obtain ⟨k, hk⟩ := Nat.ne_zero_implies_bit_true hyne
        have hcon := congrArg (fun z => z.testBit (k + 1)) h
        simp only [Nat.zero_testBit] at hcon
        rw [Nat.testBit_and, Nat.testBit_add_one, Nat.testBit_add_one] at hcon
        have e1 : x / 2 = y := by omega
        have e2 : (x - 1) / 2 = y := by omega
        rw [e1, e2, hk] at hcon
        simp at hcon
      exact ⟨0, by omega⟩

theorem eq_two_pow_of_unique_bits (x : Nat) (hx : x ≠ 0)
    (h : ∀ i j, x.testBit i = true → x.testBit j = true → i = j) :
    ∃ i, x = 2 ^ i := by
  obtain ⟨i, hi⟩ := Nat.ne_zero_implies_bit_true hx
  refine ⟨i, ?_⟩
  apply Nat.eq_of_testBit_eq
  intro j
  rw [Nat.testBit_two_pow]
  by_cases hij : i = j
  · subst hij
    simp [hi]
  · have hf : x.testBit j = false := by
      by_contra hc
      rw [Bool.not_eq_false] at hc
      exact hij (h i j hi hc)
    rw [hf]
    simp [hij]

/-- C2: the non-losing-moves mask keeps exactly those playable bits that
survive the three spec rules: with more than one opponent threat inside
`playable` everything is dropped (the uniqueness conjunct is unsatisfiable),
with exactly one only that threat survives, and in every case a bit whose
one-up shift is an opponent threat is dropped. -/
theorem non_losing_moves_spec (b : Board) (playable : Nat) (j : Nat) :
    (Board.non_losing_moves b playable).testBit j = true ↔
      (playable.testBit j = true ∧
       (∀ k, ((Board.winning_moves b.board (setminus PLAYABLE_REGION b.total_board))
          &&& playable).testBit k = true → k = j) ∧
       (Board.winning_moves b.board
          (setminus PLAYABLE_REGION b.total_board)).testBit (j + 1) = false) := by
  set W := Board.winning_moves b.board (setminus PLAYABLE_REGION b.total_board) with hW
  set F := W &&& playable with hF
  have hmain : Board.non_losing_moves b playable =
      setminus (if F = 0 then playable else if F &&& (F - 1) ≠ 0 then 0 else F)
        (W >>> 1) := by
    rw [Board.non_losing_moves]
  rw [hmain]
  have hld : ∀ base : Nat, (setminus base (W >>> 1)).testBit j
      = (base.testBit j && !(W.testBit (j + 1))) := by
    intro base
    rw [setminus, Nat.testBit_xor, Nat.testBit_and, Nat.testBit_shiftRight, Nat.add_comm 1 j]
    cases base.testBit j <;> cases W.testBit (j + 1) <;> rfl
  by_cases h0 : F = 0
  · rw [if_pos h0, hld, Bool.and_eq_true, Bool.not_eq_true']
    constructor
    · rintro ⟨h1, h2⟩
      refine ⟨h1, ?_, h2⟩
      intro k hk
      rw [h0, Nat.zero_testBit] at hk
      exact absurd hk (by simp)
    · rintro ⟨h1, _, h3⟩
      exact ⟨h1, h3⟩
  · rw [if_neg h0]
    by_cases h1 : F &&& (F - 1) ≠ 0
    · rw [if_pos h1, hld]
      simp only [Nat.zero_testBit, Bool.false_and]
      constructor
      · intro hc
        exact absurd hc (by simp)
      · rintro ⟨hp, huniq, hup⟩
        exfalso
        obtain ⟨t, ht⟩ := eq_two_pow_of_unique_bits F h0
          (fun i k hi hk => (huniq i hi).trans (huniq k hk).symm)
        rw [ht] at h1
        exact h1 (pow_and_pred t)
    · rw [if_neg h1, hld, Bool.and_eq_true, Bool.not_eq_true']
      rw [Ne, Decidable.not_not] at h1
      obtain ⟨t, ht⟩ := and_pred_pow F h0 h1
      constructor
      · rintro ⟨hFj, hup⟩
        have hjt : j = t := by
          rw [ht, Nat.testBit_two_pow] at hFj
          exact (of_decide_eq_true hFj).symm
        have hplay : playable.testBit j = true := by
          have : F.testBit j = (W.testBit j && playable.testBit j) := by
            rw [hF, Nat.testBit_and]
          rw [this] at hFj
          exact (Bool.and_eq_true _ _ |>.mp hFj).2
        refine ⟨hplay, ?_, hup⟩
        intro k hk
        rw [ht, Nat.testBit_two_pow] at hk
        have := of_decide_eq_true hk
        omega
      · rintro ⟨hp, huniq, hup⟩
        have hFt : F.testBit t = true := by
          rw [ht, Nat.testBit_two_pow]
          simp
        have hjt : t = j := huniq t hFt
        refine ⟨?_, hup⟩
        rw [← hjt]
        exact hFt

/-- Witness for C2 would be unnecessary (no hypotheses), kept as a
concrete sanity check derived from the theorem on the empty board. -/
theorem non_losing_moves_spec_check :
    (Board.non_losing_moves Board.new BOTTOM_ROW_MASK).testBit 0 = true := by
  rw [non_losing_moves_spec]
  refine ⟨by decide, ?_, by decide⟩
  intro k hk
  have hz : Board.winning_moves Board.new.board
      (setminus PLAYABLE_REGION Board.new.total_board) &&& BOTTOM_ROW_MASK = 0 := by
    decide
  rw [hz, Nat.zero_testBit] at hk
  exact absurd hk (by simp)

/-! ## C9: the Moves iterator -/

theorem movesAux_eq (mask : Nat) : ∀ l : List Nat,
    movesAux mask l
      = (l.filter (fun c => mask &&& (COLUMN_MASK <<< (c * COUNTS_PER_COL)) != 0)).map
          (fun c => (mask &&& (COLUMN_MASK <<< (c * COUNTS_PER_COL)), c)) := by
  intro l
  induction l with
  | nil => rfl
  | cons c rest ih =>
    by_cases h : mask &&& (COLUMN_MASK <<< (c * COUNTS_PER_COL)) ≠ 0
    · simp only [movesAux, if_pos h, List.filter_cons,
        show (mask &&& (COLUMN_MASK <<< (c * COUNTS_PER_COL)) != 0) = true by simpa using h,
        if_pos, List.map_cons, ih]
    · simp only [movesAux, if_neg h, List.filter_cons]
      have hb : (mask &&& (COLUMN_MASK <<< (c * COUNTS_PER_COL)) != 0) = false := by
        simpa using h
      rw [hb]
      simpa using ih

theorem DEFAULT_ORDER_nodup : DEFAULT_ORDER.Nodup := by decide

/-- C9: the mask-constructed Moves iterator yields exactly one
(move_bit, column) pair for each column whose bit in the mask is
non-zero, visits columns in the fixed centre-out order 3,2,4,1,5,0,6,
and never yields a column absent from the mask; its yield sequence is a
finite list. -/
theorem movesList_spec (mask : Nat) :
    ((movesList mask).map Prod.snd
        = DEFAULT_ORDER.filter
            (fun c => mask &&& (COLUMN_MASK <<< (c * COUNTS_PER_COL)) != 0)) ∧
    (∀ mv c, (mv, c) ∈ movesList mask →
        mv = mask &&& (COLUMN_MASK <<< (c * COUNTS_PER_COL)) ∧ mv ≠ 0 ∧
          c ∈ DEFAULT_ORDER) ∧
    (∀ c, ((movesList mask).map Prod.snd).count c
        = if c ∈ DEFAULT_ORDER ∧ mask &&& (COLUMN_MASK <<< (c * COUNTS_PER_COL)) ≠ 0
          then 1 else 0) := by
  have hfilter := movesAux_eq mask DEFAULT_ORDER
  refine ⟨?_, ?_, ?_⟩
  · rw [movesList, hfilter, List.map_map]
    exact List.map_id'' (fun x => rfl) _
  · intro mv c hmem
    rw [movesList, hfilter] at hmem
    obtain ⟨c', hc', he⟩ := List.mem_map.mp hmem
    obtain ⟨hmem', hp⟩ := List.mem_filter.mp hc'
    have hc'c : c' = c := by
      have := congrArg Prod.snd he
      simpa using this
    subst hc'c
    have hmv : mv = mask &&& (COLUMN_MASK <<< (c' * COUNTS_PER_COL)) := by
      have := congrArg Prod.fst he
      simpa using this.symm
    refine ⟨hmv, ?_, hmem'⟩
    rw [hmv]
    simpa using hp
  · intro c
    have h1 : (movesList mask).map Prod.snd
        = DEFAULT_ORDER.filter
            (fun c => mask &&& (COLUMN_MASK <<< (c * COUNTS_PER_COL)) != 0) := by
      rw [movesList, hfilter, List.map_map]
      exact List.map_id'' (fun x => rfl) _
    rw [h1]
    by_cases hc : c ∈ DEFAULT_ORDER ∧ mask &&& (COLUMN_MASK <<< (c * COUNTS_PER_COL)) ≠ 0
    · rw [if_pos hc]
      apply List.count_eq_one_of_mem (DEFAULT_ORDER_nodup.filter _)
      rw [List.mem_filter]
      exact ⟨hc.1, by simpa using hc.2⟩
    · rw [if_neg hc]
      apply List.count_eq_zero_of_not_mem
      rw [List.mem_filter]
      intro hcon
      exact hc ⟨hcon.1, by simpa using hcon.2⟩

/-! ## C3: winning_moves against is_win -/

theorem testBit_shl64 (p k j : Nat) :
    (shl64 p k).testBit j = (decide (j < 64) && (decide (j ≥ k) && p.testBit (j - k))) := by
  rw [shl64, Nat.testBit_mod_two_pow, Nat.testBit_shiftLeft]

theorem fold_win_iff (p d : Nat) :
    ((p &&& (p >>> d)) &&& ((p &&& (p >>> d)) >>> (2 * d)) != 0) = true ↔
      ∃ i, p.testBit i = true ∧ p.testBit (i + d) = true ∧
        p.testBit (i + 2 * d) = true ∧ p.testBit (i + 3 * d) = true := by
  rw [bne_iff_ne]
  constructor
  · intro h
    obtain ⟨i, hi⟩ := Nat.ne_zero_implies_bit_true h
    simp only [Nat.testBit_and, Nat.testBit_shiftRight, Bool.and_eq_true] at hi
    obtain ⟨⟨h1, h2⟩, h3, h4⟩ := hi
    refine ⟨i, h1, ?_, ?_, ?_⟩
    · rw [show i + d = d + i by omega]
      exact h2
    · rw [show i + 2 * d = 2 * d + i by omega]
      exact h3
    · rw [show i + 3 * d = d + (2 * d + i) by omega]
      exact h4
  · rintro ⟨i, h1, h2, h3, h4⟩
    have hbit : ((p &&& (p >>> d)) &&& ((p &&& (p >>> d)) >>> (2 * d))).testBit i = true := by
      simp only [Nat.testBit_and, Nat.testBit_shiftRight, Bool.and_eq_true]
      refine ⟨⟨h1, ?_⟩, ?_, ?_⟩
      · rw [show d + i = i + d by omega]
        exact h2
      · rw [show 2 * d + i = i + 2 * d by omega]
        exact h3
      · rw [show d + (2 * d + i) = i + 3 * d by omega]
        exact h4
    intro h0
    rw [h0, Nat.zero_testBit] at hbit
    exact absurd hbit (by simp)

/-- Board::is_win holds exactly when four bits in arithmetic progression
with common difference 1, 6, 7 or 8 are set. -/
theorem is_win_iff (p : Nat) :
    Board.is_win p = true ↔
      ∃ d, (d = 1 ∨ d = 6 ∨ d = 7 ∨ d = 8) ∧
        ∃ i, p.testBit i = true ∧ p.testBit (i + d) = true ∧
          p.testBit (i + 2 * d) = true ∧ p.testBit (i + 3 * d) = true := by
  unfold Board.is_win
  rw [List.any_eq_true]
  constructor
  · rintro ⟨d, hd, hany⟩
    refine ⟨d, ?_, (fold_win_iff p d).mp hany⟩
    have : DIRECTION = [1, 6, 7, 8] := by decide
    rw [this] at hd
    simp only [List.mem_cons, List.not_mem_nil, or_false] at hd
    tauto
  · rintro ⟨d, hd, hwin⟩
    refine ⟨d, ?_, (fold_win_iff p d).mpr hwin⟩
    have : DIRECTION = [1, 6, 7, 8] := by decide
    rw [this]
    simp only [List.mem_cons, List.not_mem_nil, or_false]
    tauto

theorem foldl_or_bit (p j : Nat) : ∀ (l : List Nat) (start : Nat),
    ((l.foldl (fun acc dir =>
      let pp := shl64 p dir &&& shl64 p (2 * dir)
      let acc := acc ||| (pp &&& shl64 p (3 * dir))
      let acc := acc ||| (pp &&& (p >>> dir))
      let pp := pp >>> (3 * dir)
      let acc := acc ||| (pp &&& (p >>> (3 * dir)))
      acc ||| (pp &&& shl64 p dir)) start).testBit j = true) ↔
    (start.testBit j = true ∨ ∃ d ∈ l,
      (((shl64 p d &&& shl64 p (2 * d)) &&& shl64 p (3 * d)).testBit j = true ∨
       ((shl64 p d &&& shl64 p (2 * d)) &&& (p >>> d)).testBit j = true ∨
       (((shl64 p d &&& shl64 p (2 * d)) >>> (3 * d)) &&& (p >>> (3 * d))).testBit j = true ∨
       (((shl64 p d &&& shl64 p (2 * d)) >>> (3 * d)) &&& shl64 p d).testBit j = true)) := by
  intro l
  induction l with
  | nil =>
    intro start
    simp
  | cons d rest ih =>
    intro start
    rw [List.foldl_cons, ih]
    simp only [Nat.testBit_or, Bool.or_eq_true, List.mem_cons]
    constructor
    · rintro (h | ⟨d', hd', hcase⟩)
      · rcases h with ((((h | h) | h) | h) | h)
        · exact Or.inl h
        · exact Or.inr ⟨d, Or.inl rfl, Or.inl h⟩
        · exact Or.inr ⟨d, Or.inl rfl, Or.inr (Or.inl h)⟩
        · exact Or.inr ⟨d, Or.inl rfl, Or.inr (Or.inr (Or.inl h))⟩
        · exact Or.inr ⟨d, Or.inl rfl, Or.inr (Or.inr (Or.inr h))⟩
      · exact Or.inr ⟨d', Or.inr hd', hcase⟩
    · rintro (h | ⟨d', hd' | hd', hcase⟩)
      · exact Or.inl (Or.inl (Or.inl (Or.inl (Or.inl h))))
      · subst hd'
        rcases hcase with h | h | h | h
        · exact Or.inl (Or.inl (Or.inl (Or.inl (Or.inr h))))
        · exact Or.inl (Or.inl (Or.inl (Or.inr h)))
        · exact Or.inl (Or.inl (Or.inr h))
        · exact Or.inl (Or.inr h)
      · exact Or.inr ⟨d', hd', hcase⟩

theorem vert_piece_iff (p j : Nat) (hj64 : j < 64) :
    ((shl64 p 1 &&& shl64 p 2 &&& shl64 p 3).testBit j = true) ↔
      (3 ≤ j ∧ p.testBit (j - 1) = true ∧ p.testBit (j - 2) = true ∧
        p.testBit (j - 3) = true) := by
  simp only [Nat.testBit_and, testBit_shl64, Bool.and_eq_true, decide_eq_true_eq]
  constructor
  · rintro ⟨⟨⟨_, h1a, h1⟩, _, h2a, h2⟩, _, h3a, h3⟩
    exact ⟨by omega, h1, h2, h3⟩
  · rintro ⟨ha, h1, h2, h3⟩
    exact ⟨⟨⟨hj64, by omega, h1⟩, hj64, by omega, h2⟩, hj64, by omega, h3⟩

theorem pieceA_iff (p d j : Nat) (hj64 : j < 64) :
    (((shl64 p d &&& shl64 p (2 * d)) &&& shl64 p (3 * d)).testBit j = true) ↔
      (3 * d ≤ j ∧ p.testBit (j - d) = true ∧ p.testBit (j - 2 * d) = true ∧
        p.testBit (j - 3 * d) = true) := by
  simp only [Nat.testBit_and, testBit_shl64, Bool.and_eq_true, decide_eq_true_eq]
  constructor
  · rintro ⟨⟨⟨_, h1a, h1⟩, _, h2a, h2⟩, _, h3a, h3⟩
    exact ⟨by omega, h1, h2, h3⟩
  · rintro ⟨ha, h1, h2, h3⟩
    exact ⟨⟨⟨hj64, by omega, h1⟩, hj64, by omega, h2⟩, hj64, by omega, h3⟩

theorem pieceB_iff (p d j : Nat) (hj64 : j < 64) :
    (((shl64 p d &&& shl64 p (2 * d)) &&& (p >>> d)).testBit j = true) ↔
      (2 * d ≤ j ∧ p.testBit (j - d) = true ∧ p.testBit (j - 2 * d) = true ∧
        p.testBit (d + j) = true) := by
  simp only [Nat.testBit_and, Nat.testBit_shiftRight, testBit_shl64,
    Bool.and_eq_true, decide_eq_true_eq]
  constructor
  · rintro ⟨⟨⟨_, h1a, h1⟩, _, h2a, h2⟩, h3⟩
    exact ⟨by omega, h1, h2, h3⟩
  · rintro ⟨ha, h1, h2, h3⟩
    exact ⟨⟨⟨hj64, by omega, h1⟩, hj64, by omega, h2⟩, h3⟩

theorem pieceC_iff (p d j : Nat) :
    ((((shl64 p d &&& shl64 p (2 * d)) >>> (3 * d)) &&& (p >>> (3 * d))).testBit j = true) ↔
      (3 * d + j < 64 ∧ p.testBit (2 * d + j) = true ∧ p.testBit (d + j) = true ∧
        p.testBit (3 * d + j) = true) := by
  simp only [Nat.testBit_and, Nat.testBit_shiftRight, testBit_shl64,
    Bool.and_eq_true, decide_eq_true_eq]
  constructor
  · rintro ⟨⟨⟨hlt, h1a, h1⟩, _, h2a, h2⟩, h3⟩
    refine ⟨hlt, ?_, ?_, h3⟩
    · rw [show 2 * d + j = 3 * d + j - d by omega]
      exact h1
    · rw [show d + j = 3 * d + j - 2 * d by omega]
      exact h2
  · rintro ⟨hlt, h1, h2, h3⟩
    refine ⟨⟨⟨hlt, by omega, ?_⟩, hlt, by omega, ?_⟩, h3⟩
    · rw [show 3 * d + j - d = 2 * d + j by omega]
      exact h1
    · rw [show 3 * d + j - 2 * d = d + j by omega]
      exact h2

theorem pieceD_iff (p d j : Nat) (hj64 : j < 64) :
    ((((shl64 p d &&& shl64 p (2 * d)) >>> (3 * d)) &&& shl64 p d).testBit j = true) ↔
      (3 * d + j < 64 ∧ d ≤ j ∧ p.testBit (j - d) = true ∧ p.testBit (d + j) = true ∧
        p.testBit (2 * d + j) = true) := by
  simp only [Nat.testBit_and, Nat.testBit_shiftRight, testBit_shl64,
    Bool.and_eq_true, decide_eq_true_eq]
  constructor
  · rintro ⟨⟨⟨hlt, h1a, h1⟩, _, h2a, h2⟩, _, h3a, h3⟩
    refine ⟨hlt, by omega, h3, ?_, ?_⟩
    · rw [show d + j = 3 * d + j - 2 * d by omega]
      exact h2
    · rw [show 2 * d + j = 3 * d + j - d by omega]
      exact h1
  · rintro ⟨hlt, hdj, h1, h2, h3⟩
    refine ⟨⟨⟨hlt, by omega, ?_⟩, hlt, by omega, ?_⟩, hj64, by omega, h1⟩
    · rw [show 3 * d + j - d = 2 * d + j by omega]
      exact h3
    · rw [show 3 * d + j - 2 * d = d + j by omega]
      exact h2

/-- Bit-level description of Board::winning_moves at a bit of the
allowed mask. -/
theorem winning_moves_bit (p possible j : Nat) (hj64 : j < 64)
    (hjposs : possible.testBit j = true) :
    ((Board.winning_moves p possible).testBit j = true) ↔
      ((3 ≤ j ∧ p.testBit (j - 1) = true ∧ p.testBit (j - 2) = true ∧
          p.testBit (j - 3) = true) ∨
       ∃ d, (d = 6 ∨ d = 7 ∨ d = 8) ∧
         ((3 * d ≤ j ∧ p.testBit (j - d) = true ∧ p.testBit (j - 2 * d) = true ∧
             p.testBit (j - 3 * d) = true) ∨
          (2 * d ≤ j ∧ p.testBit (j - d) = true ∧ p.testBit (j - 2 * d) = true ∧
             p.testBit (d + j) = true) ∨
          (3 * d + j < 64 ∧ p.testBit (2 * d + j) = true ∧ p.testBit (d + j) = true ∧
             p.testBit (3 * d + j) = true) ∨
          (3 * d + j < 64 ∧ d ≤ j ∧ p.testBit (j - d) = true ∧ p.testBit (d + j) = true ∧
             p.testBit (2 * d + j) = true))) := by
  have hwm : Board.winning_moves p possible =
      ((DIRECTION.drop 1).foldl (fun acc dir =>
        let pp := shl64 p dir &&& shl64 p (2 * dir)
        let acc := acc ||| (pp &&& shl64 p (3 * dir))
        let acc := acc ||| (pp &&& (p >>> dir))
        let pp := pp >>> (3 * dir)
        let acc := acc ||| (pp &&& (p >>> (3 * dir)))
        acc ||| (pp &&& shl64 p dir))
        (shl64 p 1 &&& shl64 p 2 &&& shl64 p 3)) &&& possible := rfl
  have hdrop : DIRECTION.drop 1 = [6, 7, 8] := by decide
  rw [hwm, Nat.testBit_and, hjposs, Bool.and_true, hdrop, foldl_or_bit]
  rw [vert_piece_iff p j hj64]
  constructor
  · rintro (hv | ⟨d, hd, hcase⟩)
    · exact Or.inl hv
    · have hd' : d = 6 ∨ d = 7 ∨ d = 8 := by
        simp only [List.mem_cons, List.not_mem_nil, or_false] at hd
        tauto
      refine Or.inr ⟨d, hd', ?_⟩
      rcases hcase with h | h | h | h
      · exact Or.inl ((pieceA_iff p d j hj64).mp h)
      · exact Or.inr (Or.inl ((pieceB_iff p d j hj64).mp h))
      · exact Or.inr (Or.inr (Or.inl ((pieceC_iff p d j).mp h)))
      · exact Or.inr (Or.inr (Or.inr ((pieceD_iff p d j hj64).mp h)))
  · rintro (hv | ⟨d, hd, hcase⟩)
    · exact Or.inl hv
    · have hd' : d ∈ [6, 7, 8] := by
        simp only [List.mem_cons, List.not_mem_nil, or_false]
        tauto
      refine Or.inr ⟨d, hd', ?_⟩
      rcases hcase with h | h | h | h
      · exact Or.inl ((pieceA_iff p d j hj64).mpr h)
      · exact Or.inr (Or.inl ((pieceB_iff p d j hj64).mpr h))
      · exact Or.inr (Or.inr (Or.inl ((pieceC_iff p d j).mpr h)))
      · exact Or.inr (Or.inr (Or.inr ((pieceD_iff p d j hj64).mpr h)))

/-- C3 (amended): for a side bitboard inside the playable region with no
existing four-in-a-row, an allowed mask inside the playable region and
disjoint from the side, and no side stone directly above an allowed
cell, winning_moves has set exactly those allowed cells whose play
completes a four-in-a-row. -/
theorem winning_moves_iff_is_win (p possible : Nat)
    (hp : p &&& PLAYABLE_REGION = p)
    (hnowin : Board.is_win p = false)
    (hdisj : possible &&& p = 0)
    (hplay : possible &&& PLAYABLE_REGION = possible)
    (habove : ∀ k, possible.testBit k = true → p.testBit (k + 1) = false)
    (j : Nat) (hj : possible.testBit j = true) :
    (Board.winning_moves p possible).testBit j = true ↔
      Board.is_win (p ||| 2 ^ j) = true := by
  have hPLAY : ∀ k, PLAYABLE_REGION.testBit k = true → k < 48 := by
    intro k hk
    by_contra hge
    have hfalse : PLAYABLE_REGION.testBit k = false := by
      apply Nat.testBit_lt_two_pow
      calc PLAYABLE_REGION < 2 ^ 48 := by decide
        _ ≤ 2 ^ k := Nat.pow_le_pow_right (by norm_num) (by omega)
    rw [hfalse] at hk
    exact absurd hk (by simp)
  have hpb : ∀ k, p.testBit k = true → k < 48 := by
    intro k hk
    apply hPLAY
    have h1 := congrArg (fun x => x.testBit k) hp
    simp only [Nat.testBit_and] at h1
    rw [hk] at h1
    simpa using h1.symm
  have hj48 : j < 48 := by
    apply hPLAY
    have h1 := congrArg (fun x => x.testBit j) hplay
    simp only [Nat.testBit_and] at h1
    rw [hj] at h1
    simpa using h1.symm
  have hq : ∀ x, (p ||| 2 ^ j).testBit x = (p.testBit x || decide (j = x)) := by
    intro x
    rw [Nat.testBit_or, Nat.testBit_two_pow]
  rw [winning_moves_bit p possible j (by omega) hj]
  constructor
  · rintro (⟨h3j, h1, h2, h3⟩ | ⟨d, hd, hcase⟩)
    · refine (is_win_iff _).mpr ⟨1, Or.inl rfl, j - 3, ?_, ?_, ?_, ?_⟩
      · rw [hq, h3]
        rfl
      · rw [show j - 3 + 1 = j - 2 by omega, hq, h2]
        rfl
      · rw [show j - 3 + 2 * 1 = j - 1 by omega, hq, h1]
        rfl
      · rw [show j - 3 + 3 * 1 = j by omega, hq]
        simp
    · have hd1 : 6 ≤ d ∧ d ≤ 8 := by rcases hd with h | h | h <;> omega
      rcases hcase with ⟨ha, h1, h2, h3⟩ | ⟨ha, h1, h2, h3⟩ | ⟨ha, h1, h2, h3⟩ |
        ⟨ha, hdj, h1, h2, h3⟩
      · refine (is_win_iff _).mpr ⟨d, by tauto, j - 3 * d, ?_, ?_, ?_, ?_⟩
        · rw [hq, h3]
          rfl
        · rw [show j - 3 * d + d = j - 2 * d by omega, hq, h2]
          rfl
        · rw [show j - 3 * d + 2 * d = j - d by omega, hq, h1]
          rfl
        · rw [show j - 3 * d + 3 * d = j by omega, hq]
          simp
      · refine (is_win_iff _).mpr ⟨d, by tauto, j - 2 * d, ?_, ?_, ?_, ?_⟩
        · rw [hq, h2]
          rfl
        · rw [show j - 2 * d + d = j - d by omega, hq, h1]
          rfl
        · rw [show j - 2 * d + 2 * d = j by omega, hq]
          simp
        · rw [show j - 2 * d + 3 * d = d + j by omega, hq, h3]
          rfl
      · refine (is_win_iff _).mpr ⟨d, by tauto, j, ?_, ?_, ?_, ?_⟩
        · rw [hq]
          simp
        · rw [show j + d = d + j by omega, hq, h2]
          rfl
        · rw [show j + 2 * d = 2 * d + j by omega, hq, h1]
          rfl
        · rw [show j + 3 * d = 3 * d + j by omega, hq, h3]
          rfl
      · refine (is_win_iff _).mpr ⟨d, by tauto, j - d, ?_, ?_, ?_, ?_⟩
        · rw [hq, h1]
          rfl
        · rw [show j - d + d = j by omega, hq]
          simp
        · rw [show j - d + 2 * d = d + j by omega, hq, h2]
          rfl
        · rw [show j - d + 3 * d = 2 * d + j by omega, hq, h3]
          rfl
  · intro hwin
    obtain ⟨d, hd, i, h1, h2, h3, h4⟩ := (is_win_iff _).mp hwin
    rw [hq] at h1 h2 h3 h4
    simp only [Bool.or_eq_true, decide_eq_true_eq] at h1 h2 h3 h4
    have hcontra_above : ∀ x, j = x → p.testBit (x + 1) = true → False := by
      intro x hx hbit
      have := habove j hj
      rw [hx] at this
      rw [this] at hbit
      exact absurd hbit (by simp)
    rcases hd with hd1 | hd678
    · subst hd1
      rcases h1 with h1 | h1 <;> rcases h2 with h2 | h2 <;>
        rcases h3 with h3 | h3 <;> rcases h4 with h4 | h4
      all_goals try (exfalso; omega)
      · -- all four in p: contradicts no existing win
        exfalso
        have : Board.is_win p = true :=
          (is_win_iff p).mpr ⟨1, Or.inl rfl, i, h1, h2, h3, h4⟩
        rw [hnowin] at this
        exact absurd this (by simp)
      · -- j = i + 3: the vertical disjunct
        refine Or.inl ⟨by omega, ?_, ?_, ?_⟩
        · rw [show j - 1 = i + 2 * 1 by omega]
          exact h3
        · rw [show j - 2 = i + 1 by omega]
          exact h2
        · rw [show j - 3 = i by omega]
          exact h1
      · -- j = i + 2: p holds one above j
        exact False.elim (hcontra_above (i + 2 * 1) h3
          (by rw [show i + 2 * 1 + 1 = i + 3 * 1 by omega]; exact h4))
      · -- j = i + 1
        exact False.elim (hcontra_above (i + 1) h2
          (by rw [show i + 1 + 1 = i + 2 * 1 by omega]; exact h3))
      · -- j = i
        exact False.elim (hcontra_above i h1 h2)
    · have hd6 : 6 ≤ d ∧ d ≤ 8 := by rcases hd678 with h | h | h <;> omega
      rcases h1 with h1 | h1 <;> rcases h2 with h2 | h2 <;>
        rcases h3 with h3 | h3 <;> rcases h4 with h4 | h4
      all_goals try (exfalso; omega)
      · -- all four in p
        exfalso
        have : Board.is_win p = true :=
          (is_win_iff p).mpr ⟨d, Or.inr hd678, i, h1, h2, h3, h4⟩
        rw [hnowin] at this
        exact absurd this (by simp)
      · -- j = i + 3d: disjunct A
        refine Or.inr ⟨d, hd678, Or.inl ⟨by omega, ?_, ?_, ?_⟩⟩
        · rw [show j - d = i + 2 * d by omega]
          exact h3
        · rw [show j - 2 * d = i + d by omega]
          exact h2
        · rw [show j - 3 * d = i by omega]
          exact h1
      · -- j = i + 2d: disjunct B
        refine Or.inr ⟨d, hd678, Or.inr (Or.inl ⟨by omega, ?_, ?_, ?_⟩)⟩
        · rw [show j - d = i + d by omega]
          exact h2
        · rw [show j - 2 * d = i by omega]
          exact h1
        · rw [show d + j = i + 3 * d by omega]
          exact h4
      · -- j = i + d: disjunct D
        have hb4 : i + 3 * d < 48 := hpb _ h4
        refine Or.inr ⟨d, hd678, Or.inr (Or.inr (Or.inr
          ⟨by omega, by omega, ?_, ?_, ?_⟩))⟩
        · rw [show j - d = i by omega]
          exact h1
        · rw [show d + j = i + 2 * d by omega]
          exact h3
        · rw [show 2 * d + j = i + 3 * d by omega]
          exact h4
      · -- j = i: disjunct C
        have hb4 : i + 3 * d < 48 := hpb _ h4
        refine Or.inr ⟨d, hd678, Or.inr (Or.inr (Or.inl
          ⟨by omega, ?_, ?_, ?_⟩))⟩
        · rw [show 2 * d + j = i + 2 * d by omega]
          exact h3
        · rw [show d + j = i + d by omega]
          exact h2
        · rw [show 3 * d + j = i + 3 * d by omega]
          exact h4

/-- Counterexample to C3 as frozen: three stacked stones with the empty
cell below them complete a vertical four by is_win, yet winning_moves
reports nothing (it only checks upward). -/
theorem winning_moves_iff_is_win_counterexample :
    (14 &&& PLAYABLE_REGION = 14) ∧ Board.is_win 14 = false ∧
    (1 &&& 14 = 0) ∧ (1 &&& PLAYABLE_REGION = 1) ∧
    Nat.testBit (1 : Nat) 0 = true ∧
    Board.is_win (14 ||| 2 ^ 0) = true ∧
    (Board.winning_moves 14 1).testBit 0 = false := by
  refine ⟨by decide, by decide, by decide, by decide, by decide, by decide, by decide⟩

/-- Witness for C3 (amended) on three stacked stones with the empty cell
above them. -/
theorem winning_moves_iff_is_win_witness :
    ((Board.winning_moves 7 8).testBit 3 = true ↔ Board.is_win (7 ||| 2 ^ 3) = true) ∧
    (Board.winning_moves 7 8).testBit 3 = true := by
  constructor
  · refine winning_moves_iff_is_win 7 8 (by decide) (by decide) (by decide) (by decide)
      ?_ 3 (by decide)
    intro k hk
    have hk3 : k = 3 := by
      have h8 : (8 : Nat) = 2 ^ 3 := by norm_num
      rw [h8, Nat.testBit_two_pow] at hk
      exact (of_decide_eq_true hk).symm
    subst hk3
    decide
  · decide

/-! ## C6: the winning shortcut and the transposition table -/

theorem winning_moves_zero_right (p : Nat) : Board.winning_moves p 0 = 0 := by
  rw [Board.winning_moves]
  exact Nat.and_zero _

set_option maxHeartbeats 1000000 in
theorem filled_no_possible (b : Board) (hf : b.is_filled = true) :
    b.possible_moves = 0 := by
  have ht : b.total_board = PLAYABLE_REGION := by
    have := hf
    rwa [Board.is_filled, beq_iff_eq] at this
  rw [Board.possible_moves, ht]
  decide

theorem winning_not_filled (b : Board)
    (hw : Board.player_win_moves b b.possible_moves ≠ 0) :
    b.is_filled = false := by
  by_contra hcon
  rw [Bool.not_eq_false] at hcon
  rw [Board.player_win_moves, filled_no_possible b hcon, winning_moves_zero_right] at hw
  exact hw rfl

/-- First half of C6: with an immediate winning move the search returns
the win score straight away, before the transposition-table probe, and
the explorer state is returned with the table untouched (only the node
counter advances). -/
theorem search_win_shortcut (fuel : Nat) (ex : Explorer) (board : Board) (a b : Int)
    (f : Board → Nat → Int)
    (hw : Board.player_win_moves board board.possible_moves ≠ 0) :
    search (fuel + 1) ex board a b f
      = (Explorer.win_eval (board.moves_played + 1),
         { ex with nodes_explored := ex.nodes_explored + 1 }) := by
  have hnf : board.is_filled = false := winning_not_filled board hw
  rw [search]
  simp [hnf, hw]

theorem col_to_pos_eq (possible c : Nat) :
    Board.col_to_pos possible c = possible &&& (COLUMN_MASK <<< (c * COUNTS_PER_COL)) := rfl

theorem mem_movesList {mask m c : Nat} (h : (m, c) ∈ movesList mask) :
    m = mask &&& (COLUMN_MASK <<< (c * COUNTS_PER_COL)) ∧ m ≠ 0 ∧ c ∈ DEFAULT_ORDER := by
  rw [movesList, movesAux_eq] at h
  obtain ⟨c', hc', he⟩ := List.mem_map.mp h
  obtain ⟨hmem', hp⟩ := List.mem_filter.mp hc'
  have hc'c : c' = c := by simpa using congrArg Prod.snd he
  subst hc'c
  have hmv : m = mask &&& (COLUMN_MASK <<< (c' * COUNTS_PER_COL)) := by
    simpa using (congrArg Prod.fst he).symm
  refine ⟨hmv, ?_, hmem'⟩
  rw [hmv]
  simpa using hp

theorem non_losing_subset (b : Board) (playable k : Nat)
    (h : (Board.non_losing_moves b playable).testBit k = true) :
    playable.testBit k = true := by
  set W := Board.winning_moves b.board (setminus PLAYABLE_REGION b.total_board) with hW
  set F := W &&& playable with hF
  have hmain : Board.non_losing_moves b playable =
      setminus (if F = 0 then playable else if F &&& (F - 1) ≠ 0 then 0 else F)
        (W >>> 1) := by
    rw [Board.non_losing_moves]
  rw [hmain, setminus, Nat.testBit_xor, Nat.testBit_and] at h
  have hbase : (if F = 0 then playable else if F &&& (F - 1) ≠ 0 then 0 else F).testBit k
      = true := by
    rcases hb : (if F = 0 then playable else if F &&& (F - 1) ≠ 0 then 0 else F).testBit k with
      _ | _
    · rw [hb] at h
      simp at h
    · rfl
  by_cases h0 : F = 0
  · rwa [if_pos h0] at hbase
  · rw [if_neg h0] at hbase
    by_cases h1 : F &&& (F - 1) ≠ 0
    · rw [if_pos h1, Nat.zero_testBit] at hbase
      exact absurd hbase (by simp)
    · rw [if_neg h1] at hbase
      rw [hF, Nat.testBit_and, Bool.and_eq_true] at hbase
      exact hbase.2

theorem col_to_pos_top (b : Board) (hInv : Inv b) (c : Nat) (hc : c < 7)
    (hd : dgt b.total_board c = 2 ^ 6 - 1) :
    Board.col_to_pos b.possible_moves c = 0 := by
  apply eq_of_dgt_eq 7 _ 0 (lt_of_le_of_lt Nat.and_le_left (possible_lt b))
    (Nat.pos_pow_of_pos 7 (by norm_num))
  intro e he
  have h0 : dgt (0 : Nat) e = 0 := by simp [dgt]
  rw [h0, dgt_land, dgt_colmask c hc e]
  by_cases hec : e = c
  · subst hec
    rw [if_pos rfl, dgt_possible b hInv e hc 6 hd]
    decide
  · rw [if_neg hec, Nat.and_zero]

theorem col_to_pos_pow (b : Board) (hInv : Inv b) (c : Nat) (hc : c < 7)
    (h : Nat) (hh : h ≤ 5) (hd : dgt b.total_board c = 2 ^ h - 1) :
    Board.col_to_pos b.possible_moves c = 2 ^ (7 * c + h) := by
  apply eq_of_dgt_eq 7 _ _ (lt_of_le_of_lt Nat.and_le_left (possible_lt b))
  · rw [pow128_eq]
    exact Nat.pow_lt_pow_right (by norm_num) (by omega)
  · intro e he
    rw [← col_to_pos_eq, pos_dgt b hInv c hc h hh hd e, dgt_two_pow]
    have h7 : (7 * c + h) / 7 = c := by omega
    have hm : (7 * c + h) % 7 = h := by omega
    rw [h7, hm]

theorem moves_from_non_losing (b : Board) (hInv : Inv b) (m c : Nat)
    (hmem : (m, c) ∈ movesList (b.non_losing_moves b.possible_moves)) :
    m = Board.col_to_pos b.possible_moves c ∧ m ≠ 0 ∧ c < 7 := by
  obtain ⟨hm_eq, hm0, hcmem⟩ := mem_movesList hmem
  have hc : c < 7 := by
    have hall : ∀ x ∈ DEFAULT_ORDER, x < 7 := by decide
    exact hall c hcmem
  have hsub : ∀ k, m.testBit k = true →
      (Board.col_to_pos b.possible_moves c).testBit k = true := by
    intro k hk
    rw [hm_eq, Nat.testBit_and, Bool.and_eq_true] at hk
    obtain ⟨hnl, hcm⟩ := hk
    have hp := non_losing_subset b b.possible_moves k hnl
    rw [col_to_pos_eq, Nat.testBit_and, hp, hcm]
    rfl
  obtain ⟨h, hh6, hd⟩ := hInv.2.2 c hc
  have hh5 : h ≤ 5 := by
    by_contra hcon
    have h6 : h = 6 := by omega
    subst h6
    apply hm0
    apply Nat.eq_of_testBit_eq
    intro k
    rw [Nat.zero_testBit]
    by_contra hkk
    rw [Bool.not_eq_false] at hkk
    have hck := hsub k hkk
    rw [col_to_pos_top b hInv c hc hd, Nat.zero_testBit] at hck
    exact absurd hck (by simp)
  have hpos := col_to_pos_pow b hInv c hc h hh5 hd
  have huniq : ∀ i k, m.testBit i = true → m.testBit k = true → i = k := by
    intro i k hi hk
    have h1 := hsub i hi
    have h2 := hsub k hk
    rw [hpos, Nat.testBit_two_pow] at h1 h2
    have e1 := of_decide_eq_true h1
    have e2 := of_decide_eq_true h2
    omega
  obtain ⟨i, hi⟩ := eq_two_pow_of_unique_bits m hm0 huniq
  have hit : i = 7 * c + h := by
    have : m.testBit i = true := by
      rw [hi, Nat.testBit_two_pow]
      simp
    have := hsub i this
    rw [hpos, Nat.testBit_two_pow] at this
    exact (of_decide_eq_true this).symm
  refine ⟨?_, hm0, hc⟩
  rw [hi, hit, hpos]

theorem valid_move_step (b : Board) (hInv : Inv b) (c : Nat) (hc : c < 7)
    (hm : Board.col_to_pos b.possible_moves c ≠ 0) :
    b.add c = some (b.play (Board.col_to_pos b.possible_moves c)) ∧
    (b.play (Board.col_to_pos b.possible_moves c)).revert
      (Board.col_to_pos b.possible_moves c) = b := by
  obtain ⟨h, hh6, hd⟩ := hInv.2.2 c hc
  have hh5 : h ≤ 5 := by
    by_contra hcon
    have h6 : h = 6 := by omega
    subst h6
    exact hm (col_to_pos_top b hInv c hc hd)
  have hocc : Board.col_is_occupied b.total_board c = false := by
    rw [Board.col_is_occupied]
    simp only [bne_eq_false_iff_eq]
    rw [top_colmask c hc]
    rw [and_two_pow_eq_zero_iff, testBit_eq_dgt]
    have hdiv : (7 * c + 5) / 7 = c := by omega
    have hmod : (7 * c + 5) % 7 = 5 := by omega
    rw [hdiv, hmod, hd, Nat.testBit_two_pow_sub_one]
    simp
    omega
  have hcan : b.can_add c = true := by
    rw [Board.can_add, hocc]
    simp [WIDTH]
    exact hc
  constructor
  · rw [Board.add, if_pos hcan]
  · apply play_revert_of _ _ hInv.1
    apply Nat.eq_of_testBit_eq
    intro k
    simp only [Nat.testBit_and, Nat.zero_testBit]
    by_cases hk : (Board.col_to_pos b.possible_moves c).testBit k = true
    · have hposs : b.possible_moves.testBit k = true := by
        have he : (Board.col_to_pos b.possible_moves c).testBit k
            = (b.possible_moves.testBit k
              && (COLUMN_MASK <<< (c * COUNTS_PER_COL)).testBit k) := by
          rw [Board.col_to_pos, Nat.testBit_and]
        rw [he, Bool.and_eq_true] at hk
        exact hk.1
      obtain ⟨c', h', _, _, _, _, htb⟩ := possible_bit_structure b hInv k hposs
      rw [hk, htb]
      rfl
    · rw [Bool.not_eq_true] at hk
      rw [hk]
      rfl

theorem lookup_none_iff (t : TranspositionTable) (key : Nat) :
    t.get_entry_with_key key = none ↔
      (t.table (TranspositionTable.location key)).1.stored_key
          ≠ key &&& STORED_KEY_BIT_MASK ∧
      (t.table (TranspositionTable.location key)).2.stored_key
          ≠ key &&& STORED_KEY_BIT_MASK := by
  unfold TranspositionTable.get_entry_with_key
  by_cases h1 : (t.table (TranspositionTable.location key)).1.stored_key
      = key &&& STORED_KEY_BIT_MASK
  · simp [h1]
  · by_cases h2 : (t.table (TranspositionTable.location key)).2.stored_key
        = key &&& STORED_KEY_BIT_MASK
    · simp [h1, h2]
    · simp [h1, h2]

theorem crt_unique {k1 k2 : Nat}
    (h1 : k1 < 2 ^ 32 * MAX_TABLE_SIZE) (h2 : k2 < 2 ^ 32 * MAX_TABLE_SIZE)
    (hmod : k1 % MAX_TABLE_SIZE = k2 % MAX_TABLE_SIZE)
    (hlow : k1 % 2 ^ 32 = k2 % 2 ^ 32) : k1 = k2 := by
  have hodd : Nat.Coprime 2 MAX_TABLE_SIZE := by
    rw [Nat.coprime_two_left, Nat.odd_iff]
    rfl
  have hco : Nat.Coprime (2 ^ 32) MAX_TABLE_SIZE := Nat.Coprime.pow_left 32 hodd
  have hmul : k1 ≡ k2 [MOD 2 ^ 32 * MAX_TABLE_SIZE] :=
    (Nat.modEq_and_modEq_iff_modEq_mul hco).mp ⟨hlow, hmod⟩
  have := hmul
  unfold Nat.ModEq at this
  rwa [Nat.mod_eq_of_lt h1, Nat.mod_eq_of_lt h2] at this

theorem reachable_key_lt (b : Board) (hb : Reachable b) :
    b.get_unique_position_key < 2 ^ 32 * MAX_TABLE_SIZE := by
  have hInv := reachable_inv hb
  rw [key_no_wrap b hInv]
  have h1 : b.total_board < 2 ^ 49 := pow128_eq ▸ hInv.2.1
  have h2 : b.board < 2 ^ 49 := pow128_eq ▸ inv_board_lt b hInv
  have h3 : (2 : Nat) ^ 49 + 2 ^ 49 ≤ 2 ^ 32 * MAX_TABLE_SIZE := by
    rw [MAX_TABLE_SIZE]
    norm_num
  omega

theorem mask_as_mod (x : Nat) : x &&& STORED_KEY_BIT_MASK = x % 2 ^ 32 := by
  have hmask : STORED_KEY_BIT_MASK = 2 ^ 32 - 1 := by decide
  rw [hmask, Nat.and_pow_two_sub_one_eq_mod]

/-- Inserting with key k cannot create a lookup match for a different
full key, provided both keys are below the CRT bound. -/
theorem insert_preserves_none (t : TranspositionTable) (k key : Nat) (eval : Int)
    (flag depth mv : Nat) (hne : key ≠ k)
    (hk : k < 2 ^ 32 * MAX_TABLE_SIZE) (hkey : key < 2 ^ 32 * MAX_TABLE_SIZE)
    (hmiss : t.get_entry_with_key key = none) :
    (t.insert_with_key k eval flag depth mv).get_entry_with_key key = none := by
  rw [lookup_none_iff] at hmiss ⊢
  by_cases hloc : TranspositionTable.location key = TranspositionTable.location k
  · have hlow : key &&& STORED_KEY_BIT_MASK ≠ k &&& STORED_KEY_BIT_MASK := by
      intro he
      apply hne
      apply crt_unique hkey hk
      · have := hloc
        unfold TranspositionTable.location at this
        exact this
      · rw [mask_as_mod, mask_as_mod] at he
        exact he
    have htab : (t.insert_with_key k eval flag depth mv).table
        (TranspositionTable.location key)
        = (Entry.new k eval flag depth mv,
           if depth < (t.table (TranspositionTable.location k)).2.depth
           then Entry.new k eval flag depth mv
           else (t.table (TranspositionTable.location k)).2) := by
      rw [TranspositionTable.insert_with_key]
      simp only [hloc, if_pos]
    rw [htab]
    constructor
    · show (Entry.new k eval flag depth mv).stored_key ≠ key &&& STORED_KEY_BIT_MASK
      rw [Entry.new]
      intro hcon
      exact hlow hcon.symm
    · by_cases hdep : depth < (t.table (TranspositionTable.location k)).2.depth
      · rw [if_pos hdep]
        rw [Entry.new]
        intro hcon
        exact hlow hcon.symm
      · rw [if_neg hdep]
        rw [← hloc]
        exact hmiss.2
  · have htab : (t.insert_with_key k eval flag depth mv).table
        (TranspositionTable.location key) = t.table (TranspositionTable.location key) := by
      rw [TranspositionTable.insert_with_key]
      simp only [hloc, if_neg, if_false]
    rw [htab]
    exact hmiss

theorem mem_smAdd (x y : Nat × Nat × Int) : ∀ l, x ∈ smAdd y l → x = y ∨ x ∈ l := by
  intro l
  induction l with
  | nil =>
    intro h
    rw [smAdd] at h
    simpa using h
  | cons z zs ih =>
    intro h
    rw [smAdd] at h
    by_cases hc : z.2.2 < y.2.2
    · rw [if_pos hc] at h
      rcases List.mem_cons.mp h with h | h
      · exact Or.inl h
      · exact Or.inr h
    · rw [if_neg hc] at h
      rcases List.mem_cons.mp h with h | h
      · exact Or.inr (by rw [h]; exact List.mem_cons_self _ _)
      · rcases ih h with h' | h'
        · exact Or.inl h'
        · exact Or.inr (List.mem_cons_of_mem _ h')

theorem mem_build (refutation : Nat) (g : Nat → Int) :
    ∀ (l : List (Nat × Nat)) (acc : List (Nat × Nat × Int)) (x : Nat × Nat × Int),
      x ∈ l.foldl (fun sm mc =>
        if refutation = mc.2 then smAdd (mc.1, mc.2, REFUTATION_SCORE) sm
        else smAdd (mc.1, mc.2, g mc.1) sm) acc →
      x ∈ acc ∨ ∃ mc ∈ l, x.1 = mc.1 ∧ x.2.1 = mc.2 := by
  intro l
  induction l with
  | nil =>
    intro acc x h
    exact Or.inl h
  | cons mc l' ih =>
    intro acc x h
    rw [List.foldl_cons] at h
    rcases ih _ x h with h' | ⟨mc', hmem, he⟩
    · by_cases hr : refutation = mc.2
      · rw [if_pos hr] at h'
        rcases mem_smAdd _ _ _ h' with he | hacc
        · refine Or.inr ⟨mc, List.mem_cons_self _ _, ?_, ?_⟩ <;> rw [he]
        · exact Or.inl hacc
      · rw [if_neg hr] at h'
        rcases mem_smAdd _ _ _ h' with he | hacc
        · refine Or.inr ⟨mc, List.mem_cons_self _ _, ?_, ?_⟩ <;> rw [he]
        · exact Or.inl hacc
    · exact Or.inr ⟨mc', List.mem_cons_of_mem _ hmem, he⟩

/-- The move loop never creates a transposition-table match for a
reachable position whose side to move can win immediately, as long as
the recursive searcher `go` has that property. -/
theorem searchLoop_preserves
    (go : Explorer → Board → Int → Int → Int × Explorer) (P : Board)
    (hP : Reachable P)
    (hPwin : Board.player_win_moves P P.possible_moves ≠ 0)
    (hgo : ∀ ex bc a b, Reachable bc →
      ex.transpositiontable.get_entry_with_key P.get_unique_position_key = none →
      (go ex bc a b).2.transpositiontable.get_entry_with_key
        P.get_unique_position_key = none)
    (bcur : Board) (hb : Reachable bcur)
    (hbwin : Board.player_win_moves bcur bcur.possible_moves = 0)
    (depth : Nat) :
    ∀ (moves : List (Nat × Nat × Int)) (ex : Explorer) (i : Nat) (a b fe : Int)
      (fm : Nat) (ao : Int),
      (∀ m c s, (m, c, s) ∈ moves →
        m = Board.col_to_pos bcur.possible_moves c ∧ m ≠ 0 ∧ c < 7) →
      ex.transpositiontable.get_entry_with_key P.get_unique_position_key = none →
      ((searchLoop go bcur.get_unique_position_key depth ex bcur moves i a b fe fm
          ao).2).transpositiontable.get_entry_with_key P.get_unique_position_key
        = none := by
  have hkeyne : P.get_unique_position_key ≠ bcur.get_unique_position_key := by
    intro he
    have hPb : P = bcur := key_inj_of_inv P bcur (reachable_inv hP) (reachable_inv hb) he
    rw [hPb] at hPwin
    exact hPwin hbwin
  have hkP := reachable_key_lt P hP
  have hkb := reachable_key_lt bcur hb
  intro moves
  induction moves with
  | nil =>
    intro ex i a b fe fm ao hvalid hmiss
    simp only [searchLoop]
    by_cases hao : ao < a
    · simp only [if_pos hao]
      exact insert_preserves_none _ _ _ _ _ _ _ hkeyne hkb hkP hmiss
    · simp only [if_neg hao]
      exact insert_preserves_none _ _ _ _ _ _ _ hkeyne hkb hkP hmiss
  | cons head rest ih =>
    intro ex i a b fe fm ao hvalid hmiss
    obtain ⟨m, c, s⟩ := head
    obtain ⟨hmeq, hm0, hc7⟩ := hvalid m c s (List.mem_cons_self _ _)
    obtain ⟨hadd, hrev⟩ := valid_move_step bcur (reachable_inv hb) c hc7
      (by rw [← hmeq]; exact hm0)
    have hbc : Reachable (bcur.play m) := by
      rw [hmeq]
      exact Reachable.step hb hadd
    have hrev' : (bcur.play m).revert m = bcur := by
      rw [hmeq]
      exact hrev
    simp only [searchLoop]
    by_cases hi : i = 0
    · simp only [if_pos hi]
      have hmiss1 : ((go ex (bcur.play m) (-b) (-a)).2).transpositiontable.get_entry_with_key
          P.get_unique_position_key = none := hgo _ _ _ _ hbc hmiss
      by_cases hval : -(go ex (bcur.play m) (-b) (-a)).1 ≥ b
      · simp only [if_pos hval]
        exact insert_preserves_none _ _ _ _ _ _ _ hkeyne hkb hkP hmiss1
      · simp only [if_neg hval]
        rw [hrev']
        exact ih _ _ _ _ _ _ _ (fun m' c' s' hmem =>
          hvalid m' c' s' (List.mem_cons_of_mem _ hmem)) hmiss1
    · simp only [if_neg hi]
      by_cases hre : a < -(go ex (bcur.play m) (-a - 1) (-a)).1 ∧
          -(go ex (bcur.play m) (-a - 1) (-a)).1 < b
      · simp only [if_pos hre]
        have hmiss1 : ((go ex (bcur.play m) (-a - 1) (-a)).2).transpositiontable.get_entry_with_key
            P.get_unique_position_key = none := hgo _ _ _ _ hbc hmiss
        have hmiss2 : ((go (go ex (bcur.play m) (-a - 1) (-a)).2 (bcur.play m) (-b)
            (-(-(go ex (bcur.play m) (-a - 1) (-a)).1))).2).transpositiontable.get_entry_with_key
            P.get_unique_position_key = none := hgo _ _ _ _ hbc hmiss1
        by_cases hval : -(go (go ex (bcur.play m) (-a - 1) (-a)).2 (bcur.play m) (-b)
            (-(-(go ex (bcur.play m) (-a - 1) (-a)).1))).1 ≥ b
        · simp only [if_pos hval]
          exact insert_preserves_none _ _ _ _ _ _ _ hkeyne hkb hkP hmiss2
        · simp only [if_neg hval]
          rw [hrev']
          exact ih _ _ _ _ _ _ _ (fun m' c' s' hmem =>
            hvalid m' c' s' (List.mem_cons_of_mem _ hmem)) hmiss2
      · simp only [if_neg hre]
        have hmiss1 : ((go ex (bcur.play m) (-a - 1) (-a)).2).transpositiontable.get_entry_with_key
            P.get_unique_position_key = none := hgo _ _ _ _ hbc hmiss
        by_cases hval : -(go ex (bcur.play m) (-a - 1) (-a)).1 ≥ b
        · simp only [if_pos hval]
          exact insert_preserves_none _ _ _ _ _ _ _ hkeyne hkb hkP hmiss1
        · simp only [if_neg hval]
          rw [hrev']
          exact ih _ _ _ _ _ _ _ (fun m' c' s' hmem =>
            hvalid m' c' s' (List.mem_cons_of_mem _ hmem)) hmiss1

/-- The search never creates a transposition-table match for a reachable
position whose side to move can win immediately. -/
theorem search_preserves (f : Board → Nat → Int) (P : Board)
    (hP : Reachable P) (hPwin : Board.player_win_moves P P.possible_moves ≠ 0) :
    ∀ (fuel : Nat) (ex : Explorer) (board : Board) (a b : Int),
      Reachable board →
      ex.transpositiontable.get_entry_with_key P.get_unique_position_key = none →
      ((search fuel ex board a b f).2).transpositiontable.get_entry_with_key
        P.get_unique_position_key = none := by
  intro fuel
  induction fuel with
  | zero =>
    intro ex board a b hb hmiss
    simp only [search]
    exact hmiss
  | succ fuel ih =>
    intro ex board a b hb hmiss
    simp only [search]
    by_cases hfill : board.is_filled = true
    · simp only [if_pos hfill]
      exact hmiss
    · simp only [if_neg hfill]
      by_cases hwin : board.player_win_moves board.possible_moves ≠ 0
      · simp only [if_pos hwin]
        exact hmiss
      · simp only [if_neg hwin]
        by_cases hnl : board.non_losing_moves board.possible_moves = 0
        · simp only [if_pos hnl]
          exact hmiss
        · simp only [if_neg hnl]
          by_cases hab : max a (-Explorer.win_eval (board.moves_played + 3))
              ≥ min b (Explorer.win_eval (board.moves_played + 2))
          · simp only [if_pos hab]
            exact hmiss
          · simp only [if_neg hab]
            have hbwin : Board.player_win_moves board board.possible_moves = 0 := by
              rwa [ne_eq, Decidable.not_not] at hwin
            have hvalid : ∀ (refutation : Nat) (m c : Nat) (s : Int),
                (m, c, s) ∈ (movesList (board.non_losing_moves board.possible_moves)).foldl
                  (fun sm mc =>
                    if refutation = mc.2 then smAdd (mc.1, mc.2, REFUTATION_SCORE) sm
                    else smAdd (mc.1, mc.2, f board mc.1) sm) [] →
                m = Board.col_to_pos board.possible_moves c ∧ m ≠ 0 ∧ c < 7 := by
              intro refutation m c s hmem
              rcases mem_build refutation (fun mv => f board mv) _ _ _ hmem with
                hin | ⟨mc, hmcmem, he1, he2⟩
              · exact absurd hin (List.not_mem_nil _)
              · have hmc : (m, c) = mc := by
                  obtain ⟨mc1, mc2⟩ := mc
                  simp only at he1 he2
                  rw [he1, he2]
                rw [← hmc] at hmcmem
                exact moves_from_non_losing board (reachable_inv hb) m c hmcmem
            have hgo : ∀ ex1 bc a1 b1, Reachable bc →
                ex1.transpositiontable.get_entry_with_key
                  P.get_unique_position_key = none →
                (((fun ex2 bc2 a2 b2 => search fuel ex2 bc2 a2 b2 f)
                  ex1 bc a1 b1).2).transpositiontable.get_entry_with_key
                  P.get_unique_position_key = none := by
              intro ex1 bc a1 b1 hbc hm
              exact ih ex1 bc a1 b1 hbc hm
            rcases hprobe : ex.transpositiontable.get_entry_with_key
                board.get_unique_position_key with _ | entry
            · simp only [probeTT]
              exact searchLoop_preserves _ P hP hPwin hgo board hb hbwin _ _ _ _ _ _ _ _ _
                (hvalid EMPTY_MOVE) hmiss
            · simp only [probeTT]
              by_cases hfU : entry.flag = FLAG_UPPER
              · simp only [if_pos hfU]
                by_cases hcut : max a (-Explorer.win_eval (board.moves_played + 3))
                    ≥ min (min b (Explorer.win_eval (board.moves_played + 2))) entry.eval
                · simp only [if_pos hcut]
                  exact hmiss
                · simp only [if_neg hcut]
                  exact searchLoop_preserves _ P hP hPwin hgo board hb hbwin _ _ _ _ _ _ _ _ _
                    (hvalid EMPTY_MOVE) hmiss
              · simp only [if_neg hfU]
                by_cases hfL : entry.flag = FLAG_LOWER
                · simp only [if_pos hfL]
                  by_cases hcut : max (max a (-Explorer.win_eval (board.moves_played + 3)))
                      entry.eval ≥ min b (Explorer.win_eval (board.moves_played + 2))
                  · simp only [if_pos hcut]
                    exact hmiss
                  · simp only [if_neg hcut]
                    exact searchLoop_preserves _ P hP hPwin hgo board hb hbwin _ _ _ _ _ _ _ _ _
                      (hvalid entry.mv) hmiss
                · simp only [if_neg hfL]
                  exact hmiss


/-- C6: in every call of Explorer::search on a position whose side to
move has an immediate winning move, the search returns the win score
before the transposition-table probe is reached (the table comes back
untouched, only the node counter advances), and consequently no search
from any reachable position ever creates a transposition-table entry
matching such a position: if its key has no match before the search, it
has none after. -/
theorem search_never_stores_winnable
    (f : Board → Nat → Int) (P : Board)
    (hP : Reachable P)
    (hPwin : Board.player_win_moves P P.possible_moves ≠ 0) :
    (∀ (fuel : Nat) (ex : Explorer) (a b : Int),
       search (fuel + 1) ex P a b f
         = (Explorer.win_eval (P.moves_played + 1),
            { ex with nodes_explored := ex.nodes_explored + 1 }))
    ∧ (∀ (fuel : Nat) (ex : Explorer) (board : Board) (a b : Int),
         Reachable board →
         ex.transpositiontable.get_entry_with_key P.get_unique_position_key = none →
         ((search fuel ex board a b f).2).transpositiontable.get_entry_with_key
           P.get_unique_position_key = none) :=
  ⟨fun fuel ex a b => search_win_shortcut fuel ex P a b f hPwin,
   fun fuel ex board a b hb hm => search_preserves f P hP hPwin fuel ex board a b hb hm⟩

/-- Witness for C6 at the position reached by the history "323232"
(three stones stacked in each of columns 1 and 2, zero-based): the side
to move completes a vertical four. -/
theorem search_never_stores_winnable_witness :
    (search 1 Explorer.new (Board.mk 896 115584) (-1) 1 (fun _ _ => 0)
       = (Explorer.win_eval ((Board.mk 896 115584).moves_played + 1),
          { Explorer.new with nodes_explored := Explorer.new.nodes_explored + 1 }))
    ∧ ((search 3 Explorer.new Board.new (-1) 1 (fun _ _ => 0)).2
        ).transpositiontable.get_entry_with_key
        (Board.mk 896 115584).get_unique_position_key = none := by
  have h1 : Reachable (Board.mk 16384 16384) :=
    Reachable.step (c := 2) Reachable.base (by decide)
  have h2 : Reachable (Board.mk 128 16512) :=
    Reachable.step (c := 1) h1 (by decide)
  have h3 : Reachable (Board.mk 49152 49280) :=
    Reachable.step (c := 2) h2 (by decide)
  have h4 : Reachable (Board.mk 384 49536) :=
    Reachable.step (c := 1) h3 (by decide)
  have h5 : Reachable (Board.mk 114688 115072) :=
    Reachable.step (c := 2) h4 (by decide)
  have h6 : Reachable (Board.mk 896 115584) :=
    Reachable.step (c := 1) h5 (by decide)
  have h := search_never_stores_winnable (fun _ _ => 0) (Board.mk 896 115584)
    h6 (by decide)
  exact ⟨h.1 0 Explorer.new (-1) 1,
         h.2 3 Explorer.new Board.new (-1) 1 Reachable.base (by decide)⟩

end Connect4
